import Mathlib

/-
Verification development for the IMAP client transport core
(src/browserbox-imap.js): the line/literal framer, the response
dispatcher, the command queue / send engine, the error funnel and the
constructor defaults.  Byte strings are modelled as `List Char` (the
source operates on JS strings after decoding).
-/

namespace ImapTransport

/-! ### Line/literal framer: `_onData` and `COMMAND_REGEX`

`COMMAND_REGEX = /(\{(\d+)(\+)?\})?\r?\n/`.  A match is located at the
leftmost position where either a literal token `{digits[+]}` immediately
followed by `\r?\n`, or a bare `\r?\n`, occurs.  We model the regex search
by `findMatch` below and prove the leftmost-match facts we need. -/

/-- Longest prefix of decimal digit characters together with the rest of
the input; the greedy `\d+` group of `COMMAND_REGEX`. -/
def digitSpan : List Char → List Char × List Char
  | [] => ([], [])
  | c :: cs =>
    if c.isDigit then ((c :: (digitSpan cs).1), (digitSpan cs).2)
    else ([], c :: cs)

/-- Numeric value of a decimal digit string, as `Number(match[2])`. -/
def decVal (ds : List Char) : Nat := ds.foldl (fun a c => a * 10 + (c.toNat - 48)) 0

/-- Parse the part of a literal token after the opening brace, given the
digit span of the remaining input: `(\d+)(\+)?\}`.  Returns token length
(including both braces) and the numeric value of the digits. -/
def parseLitTail (ds : List Char) (r : List Char) : Option (Nat × Nat) :=
  if ds = [] then none
  else
    match r with
    | [] => none
    | d :: r2 =>
      if d = '}' then some (ds.length + 2, decVal ds)
      else if d = '+' then
        match r2 with
        | [] => none
        | e :: _ => if e = '}' then some (ds.length + 3, decVal ds) else none
      else none

/-- Parse a literal token `{<digits>[+]}` at the head of the input: the
optional group `(\{(\d+)(\+)?\})` of `COMMAND_REGEX`. -/
def parseLit (l : List Char) : Option (Nat × Nat) :=
  match l with
  | [] => none
  | c :: rest => if c = '{' then parseLitTail (digitSpan rest).1 (digitSpan rest).2 else none

/-- Match `\r?\n` at the head of the input, returning the matched length. -/
def crlfAt (l : List Char) : Option Nat :=
  match l with
  | [] => none
  | c :: rest =>
    if c = '\n' then some 1
    else if c = '\r' then
      match rest with
      | [] => none
      | d :: _ => if d = '\n' then some 2 else none
    else none

/-- Try `COMMAND_REGEX` at the head of the input.  JS regex semantics: the
optional literal group is tried greedily first; if the group matches but no
`\r?\n` follows, backtracking retries with the empty group, which then fails
on the opening brace.  Returns matched length and, when the literal group
participated, the literal's byte count. -/
def matchAt (l : List Char) : Option (Nat × Option Nat) :=
  match parseLit l with
  | some (tl, v) =>
    match crlfAt (l.drop tl) with
    | some k => some (tl + k, some v)
    | none => none
  | none =>
    match crlfAt l with
    | some k => some (k, none)
    | none => none

/-- Leftmost match of `COMMAND_REGEX`: index, matched length, and the
literal byte count when the literal group participated. -/
def findMatch : List Char → Option (Nat × Nat × Option Nat)
  | [] => none
  | c :: rest =>
    match matchAt (c :: rest) with
    | some (len, lit) => some (0, len, lit)
    | none =>
      match findMatch rest with
      | some (i, len, lit) => some (i + 1, len, lit)
      | none => none

/-! #### digitSpan lemmas -/

theorem digitSpan_eq_append (l : List Char) : (digitSpan l).1 ++ (digitSpan l).2 = l := by
  induction l with
  | nil => simp [digitSpan]
  | cons c cs ih =>
    by_cases hc : c.isDigit
    · simp [digitSpan, hc, ih]
    · simp [digitSpan, hc]

theorem digitSpan_fst_digits (l : List Char) : ∀ c ∈ (digitSpan l).1, c.isDigit := by
  induction l with
  | nil => simp [digitSpan]
  | cons c cs ih =>
    by_cases hc : c.isDigit
    · simp only [digitSpan, hc, if_pos]
      intro x hx
      rcases List.mem_cons.mp hx with h | h
      · exact h ▸ hc
      · exact ih x h
    · simp [digitSpan, hc]

theorem digitSpan_all_digits (l : List Char) (h : ∀ c ∈ l, c.isDigit) :
    digitSpan l = (l, []) := by
  induction l with
  | nil => simp [digitSpan]
  | cons c cs ih =>
    have hc : c.isDigit := h c (List.mem_cons_self c cs)
    have := ih (fun x hx => h x (List.mem_cons_of_mem c hx))
    simp [digitSpan, hc, this]

/-- Appending input whose first character is not a digit does not change the
digit span. -/
theorem digitSpan_append_head (a : List Char) (c : Char) (b : List Char)
    (hc : ¬ c.isDigit) :
    digitSpan (a ++ c :: b) = ((digitSpan a).1, (digitSpan a).2 ++ c :: b) := by
  induction a with
  | nil => simp [digitSpan, hc]
  | cons x a' ih =>
    by_cases hx : x.isDigit
    · simp [digitSpan, hx, ih]
    · simp [digitSpan, hx]

/-- When the digit span already stops inside `a`, appending anything does not
change it. -/
theorem digitSpan_append_keep (a b : List Char) (h : (digitSpan a).2 ≠ []) :
    digitSpan (a ++ b) = ((digitSpan a).1, (digitSpan a).2 ++ b) := by
  induction a with
  | nil => simp [digitSpan] at h
  | cons x a' ih =>
    by_cases hx : x.isDigit
    · have h' : (digitSpan a').2 ≠ [] := by
        intro hz; exact h (by simp [digitSpan, hx, hz])
      simp [digitSpan, hx, ih h']
    · simp [digitSpan, hx]

/-! #### parseLit lemmas -/

theorem parseLitTail_shape {ds r : List Char} {tl v : Nat}
    (h : parseLitTail ds r = some (tl, v)) :
    ds ≠ [] ∧ v = decVal ds ∧
      ((∃ r2, r = '}' :: r2 ∧ tl = ds.length + 2) ∨
       (∃ r2, r = '+' :: '}' :: r2 ∧ tl = ds.length + 3)) := by
  unfold parseLitTail at h
  by_cases hds : ds = []
  · rw [if_pos hds] at h; exact absurd h (by simp)
  · rw [if_neg hds] at h
    rcases r with _ | ⟨d, r2⟩
    · exact absurd h (by simp)
    · dsimp only at h
      by_cases hd : d = '}'
      · rw [if_pos hd] at h
        injection h with h2
        injection h2 with ha hb
        exact ⟨hds, hb.symm, Or.inl ⟨r2, by rw [hd], ha.symm⟩⟩
      · rw [if_neg hd] at h
        by_cases hd' : d = '+'
        · rw [if_pos hd'] at h
          rcases r2 with _ | ⟨e, r3⟩
          · exact absurd h (by simp)
          · dsimp only at h
            by_cases he : e = '}'
            · rw [if_pos he] at h
              injection h with h2
              injection h2 with ha hb
              exact ⟨hds, hb.symm, Or.inr ⟨r3, by rw [hd', he], ha.symm⟩⟩
            · rw [if_neg he] at h; exact absurd h (by simp)
        · rw [if_neg hd'] at h; exact absurd h (by simp)

/-- Structure of a successful literal-token parse: the input decomposes as
the token (`{ds}` or `{ds+}`) followed by the rest, with `ds` a nonempty
digit string. -/
theorem parseLit_shape {l : List Char} {tl v : Nat} (h : parseLit l = some (tl, v)) :
    ∃ ds r2, (∀ c ∈ ds, c.isDigit) ∧ ds ≠ [] ∧ v = decVal ds ∧
      ((l = '{' :: ds ++ '}' :: r2 ∧ tl = ds.length + 2) ∨
       (l = '{' :: ds ++ '+' :: '}' :: r2 ∧ tl = ds.length + 3)) := by
  match l with
  | [] => simp [parseLit] at h
  | c :: rest =>
    simp only [parseLit] at h
    by_cases hc : c = '{'
    · rw [if_pos hc] at h
      subst hc
      have hsplit := digitSpan_eq_append rest
      have hdig := digitSpan_fst_digits rest
      obtain ⟨ds, r, hspan⟩ : ∃ ds r, digitSpan rest = (ds, r) := ⟨_, _, rfl⟩
      rw [hspan] at h hsplit hdig
      dsimp only at h hsplit hdig
      obtain ⟨hne, hv, hcase⟩ := parseLitTail_shape h
      rcases hcase with ⟨r2, hr, htl⟩ | ⟨r2, hr, htl⟩
      · subst hr
        exact ⟨ds, r2, hdig, hne, hv, Or.inl ⟨by rw [← hsplit]; rfl, htl⟩⟩
      · subst hr
        exact ⟨ds, r2, hdig, hne, hv, Or.inr ⟨by rw [← hsplit]; rfl, htl⟩⟩
    · rw [if_neg hc] at h; exact absurd h (by simp)

/-- Evaluation of `parseLit` on inputs in synchronizing-token shape. -/
theorem parseLit_eval_syn (ds w : List Char) (hdig : ∀ c ∈ ds, c.isDigit)
    (hne : ds ≠ []) :
    parseLit ('{' :: ds ++ '}' :: w) = some (ds.length + 2, decVal ds) := by
  have hspan : digitSpan (ds ++ '}' :: w) = (ds, '}' :: w) := by
    rw [digitSpan_append_head ds '}' w (by decide), digitSpan_all_digits ds hdig]
    rfl
  show parseLit ('{' :: (ds ++ '}' :: w)) = _
  simp only [parseLit]
  rw [hspan]
  simp [parseLitTail, hne]

/-- Evaluation of `parseLit` on inputs in non-synchronizing-token shape. -/
theorem parseLit_eval_nonsyn (ds w : List Char) (hdig : ∀ c ∈ ds, c.isDigit)
    (hne : ds ≠ []) :
    parseLit ('{' :: ds ++ '+' :: '}' :: w) = some (ds.length + 3, decVal ds) := by
  have hspan : digitSpan (ds ++ '+' :: '}' :: w) = (ds, '+' :: '}' :: w) := by
    rw [digitSpan_append_head ds '+' ('}' :: w) (by decide), digitSpan_all_digits ds hdig]
    rfl
  show parseLit ('{' :: (ds ++ '+' :: '}' :: w)) = _
  simp only [parseLit]
  rw [hspan]
  simp [parseLitTail, hne]

theorem parseLit_bound {l : List Char} {tl v : Nat} (h : parseLit l = some (tl, v)) :
    2 ≤ tl ∧ tl ≤ l.length := by
  obtain ⟨ds, r2, _, hne, _, hcase⟩ := parseLit_shape h
  have hlen : 1 ≤ ds.length := List.length_pos.mpr hne
  rcases hcase with ⟨hl, htl⟩ | ⟨hl, htl⟩ <;> subst hl <;>
    refine ⟨by omega, ?_⟩ <;> simp [List.length_append] <;> omega

theorem parseLit_drop {l : List Char} {tl v : Nat} (h : parseLit l = some (tl, v)) :
    ∃ pre, l = pre ++ l.drop tl ∧ pre.length = tl ∧
      (∀ c ∈ pre, c = '{' ∨ c = '}' ∨ c = '+' ∨ c.isDigit) := by
  obtain ⟨ds, r2, hdig, _, _, hcase⟩ := parseLit_shape h
  rcases hcase with ⟨hl, htl⟩ | ⟨hl, htl⟩
  · refine ⟨'{' :: ds ++ ['}'], ?_, by simp [htl], ?_⟩
    · have hdrop : l.drop tl = r2 := by
        subst hl htl
        have hlen : ('{' :: ds ++ ['}']).length = ds.length + 2 := by simp
        calc ('{' :: ds ++ '}' :: r2).drop (ds.length + 2)
            = (('{' :: ds ++ ['}']) ++ r2).drop (('{' :: ds ++ ['}']).length) := by
              rw [hlen]; congr 1; simp
          _ = r2 := List.drop_left _ _
      rw [hdrop, hl]; simp
    · intro c hc
      rcases List.mem_cons.mp hc with h1 | hc2
      · exact Or.inl h1
      rcases List.mem_append.mp hc2 with h2 | h3
      · exact Or.inr (Or.inr (Or.inr (hdig c h2)))
      · have hc3 : c = '}' := by simpa using h3
        exact Or.inr (Or.inl hc3)
  · refine ⟨'{' :: ds ++ ['+', '}'], ?_, by simp [htl], ?_⟩
    · have hdrop : l.drop tl = r2 := by
        subst hl htl
        have hlen : ('{' :: ds ++ ['+', '}']).length = ds.length + 3 := by simp
        calc ('{' :: ds ++ '+' :: '}' :: r2).drop (ds.length + 3)
            = (('{' :: ds ++ ['+', '}']) ++ r2).drop (('{' :: ds ++ ['+', '}']).length) := by
              rw [hlen]; congr 1; simp
          _ = r2 := List.drop_left _ _
      rw [hdrop, hl]; simp
    · intro c hc
      rcases List.mem_cons.mp hc with h1 | hc2
      · exact Or.inl h1
      rcases List.mem_append.mp hc2 with h2 | h3
      · exact Or.inr (Or.inr (Or.inr (hdig c h2)))
      · rcases List.mem_cons.mp h3 with h4 | h5
        · exact Or.inr (Or.inr (Or.inl h4))
        · have hc3 : c = '}' := by simpa using h5
          exact Or.inr (Or.inl hc3)

/-- A successful literal-token parse is unaffected by appending more input. -/
theorem parseLit_append {l : List Char} {tl v : Nat} (b : List Char)
    (h : parseLit l = some (tl, v)) : parseLit (l ++ b) = some (tl, v) := by
  obtain ⟨ds, r2, hdig, hne, hv, hcase⟩ := parseLit_shape h
  rcases hcase with ⟨hl, htl⟩ | ⟨hl, htl⟩
  · subst hl
    have hre : ('{' :: ds ++ '}' :: r2) ++ b = '{' :: ds ++ '}' :: (r2 ++ b) := by simp
    rw [hre, parseLit_eval_syn ds (r2 ++ b) hdig hne, htl, hv]
  · subst hl
    have hre : ('{' :: ds ++ '+' :: '}' :: r2) ++ b = '{' :: ds ++ '+' :: '}' :: (r2 ++ b) := by
      simp
    rw [hre, parseLit_eval_nonsyn ds (r2 ++ b) hdig hne, htl, hv]

/-- Truncation: a literal-token parse that fits inside the first part of an
append already succeeds on that part. -/
theorem parseLit_truncate {l b : List Char} {tl v : Nat}
    (h : parseLit (l ++ b) = some (tl, v)) (hle : tl ≤ l.length) :
    parseLit l = some (tl, v) := by
  obtain ⟨ds, r2, hdig, hne, hv, hcase⟩ := parseLit_shape h
  have h0 : (l ++ b).take l.length = l := by
    rw [List.take_append_of_le_length (le_refl _), List.take_length]
  rcases hcase with ⟨hl, htl⟩ | ⟨hl, htl⟩
  · have h3 : ('{' :: ds ++ ['}']).length = tl := by simp [htl]
    have hpre : l = '{' :: ds ++ '}' :: (r2.take (l.length - ('{' :: ds ++ ['}']).length)) := by
      have h2 : l ++ b = ('{' :: ds ++ ['}']) ++ r2 := by rw [hl]; simp
      rw [← h0, h2, List.take_append_eq_append_take,
        List.take_of_length_le (by omega : ('{' :: ds ++ ['}']).length ≤ l.length)]
      simp
      omega
    rw [hpre, parseLit_eval_syn ds _ hdig hne, htl, hv]
  · have h3 : ('{' :: ds ++ ['+', '}']).length = tl := by simp [htl]
    have hpre : l =
        '{' :: ds ++ '+' :: '}' :: (r2.take (l.length - ('{' :: ds ++ ['+', '}']).length)) := by
      have h2 : l ++ b = ('{' :: ds ++ ['+', '}']) ++ r2 := by rw [hl]; simp
      rw [← h0, h2, List.take_append_eq_append_take,
        List.take_of_length_le (by omega : ('{' :: ds ++ ['+', '}']).length ≤ l.length)]
      simp
      omega
    rw [hpre, parseLit_eval_nonsyn ds _ hdig hne, htl, hv]

theorem parseLit_nil : parseLit [] = none := rfl

theorem parseLit_cons_ne {c : Char} (rest : List Char) (hc : c ≠ '{') :
    parseLit (c :: rest) = none := by
  simp [parseLit, hc]


/-! #### crlfAt lemmas -/

theorem crlfAt_lf (w : List Char) : crlfAt ('\n' :: w) = some 1 := rfl

theorem crlfAt_crlf (w : List Char) : crlfAt ('\r' :: '\n' :: w) = some 2 := rfl

theorem crlfAt_cons_other {c : Char} (w : List Char) (h1 : c ≠ '\n') (h2 : c ≠ '\r') :
    crlfAt (c :: w) = none := by
  simp [crlfAt, h1, h2]

theorem crlfAt_cr_nil : crlfAt ['\r'] = none := rfl

theorem crlfAt_cr_other {d : Char} (w : List Char) (hd : d ≠ '\n') :
    crlfAt ('\r' :: d :: w) = none := by
  simp [crlfAt, hd]

theorem crlfAt_shape {l : List Char} {k : Nat} (h : crlfAt l = some k) :
    (k = 1 ∧ ∃ w, l = '\n' :: w) ∨ (k = 2 ∧ ∃ w, l = '\r' :: '\n' :: w) := by
  match l with
  | [] => simp [crlfAt] at h
  | c :: rest =>
    simp only [crlfAt] at h
    by_cases hc : c = '\n'
    · rw [if_pos hc] at h
      injection h with h1
      exact Or.inl ⟨h1.symm, rest, by rw [hc]⟩
    · rw [if_neg hc] at h
      by_cases hc' : c = '\r'
      · rw [if_pos hc'] at h
        rcases rest with _ | ⟨d, rest2⟩
        · exact absurd h (by simp)
        · dsimp only at h
          by_cases hd : d = '\n'
          · rw [if_pos hd] at h
            injection h with h1
            exact Or.inr ⟨h1.symm, rest2, by rw [hc', hd]⟩
          · rw [if_neg hd] at h; exact absurd h (by simp)
      · rw [if_neg hc'] at h; exact absurd h (by simp)

theorem crlfAt_append {x : List Char} {k : Nat} (b : List Char)
    (h : crlfAt x = some k) : crlfAt (x ++ b) = some k := by
  rcases crlfAt_shape h with ⟨hk, w, hw⟩ | ⟨hk, w, hw⟩ <;> subst hw <;> subst hk
  · exact crlfAt_lf (w ++ b)
  · exact crlfAt_crlf (w ++ b)

theorem crlfAt_none_append {x : List Char} (b : List Char)
    (h : crlfAt x = none) (hn : '\n' ∈ x) : crlfAt (x ++ b) = none := by
  match x with
  | [] => simp at hn
  | c :: rest =>
    by_cases hc : c = '\n'
    · subst hc
      rw [crlfAt_lf] at h
      exact absurd h (by simp)
    · by_cases hc' : c = '\r'
      · subst hc'
        rcases rest with _ | ⟨d, rest2⟩
        · simp only [List.mem_singleton] at hn
          exact absurd hn.symm hc
        · by_cases hd : d = '\n'
          · subst hd
            rw [crlfAt_crlf] at h
            exact absurd h (by simp)
          · exact crlfAt_cr_other (rest2 ++ b) hd
      · exact crlfAt_cons_other (rest ++ b) hc hc'

/-! #### matchAt evaluation and inversion -/

theorem matchAt_eval_lit {l : List Char} {tl v k : Nat}
    (hp : parseLit l = some (tl, v)) (hc : crlfAt (l.drop tl) = some k) :
    matchAt l = some (tl + k, some v) := by
  unfold matchAt
  rw [hp]
  dsimp only
  rw [hc]

theorem matchAt_eval_lit_none {l : List Char} {tl v : Nat}
    (hp : parseLit l = some (tl, v)) (hc : crlfAt (l.drop tl) = none) :
    matchAt l = none := by
  unfold matchAt
  rw [hp]
  dsimp only
  rw [hc]

theorem matchAt_eval_plain {l : List Char} {k : Nat}
    (hp : parseLit l = none) (hc : crlfAt l = some k) :
    matchAt l = some (k, none) := by
  unfold matchAt
  rw [hp]
  dsimp only
  rw [hc]

theorem matchAt_eval_plain_none {l : List Char}
    (hp : parseLit l = none) (hc : crlfAt l = none) :
    matchAt l = none := by
  unfold matchAt
  rw [hp]
  dsimp only
  rw [hc]

theorem matchAt_inv {l : List Char} {len : Nat} {lo : Option Nat}
    (h : matchAt l = some (len, lo)) :
    (∃ tl v k, parseLit l = some (tl, v) ∧ crlfAt (l.drop tl) = some k ∧
      len = tl + k ∧ lo = some v) ∨
    (∃ k, parseLit l = none ∧ crlfAt l = some k ∧ len = k ∧ lo = none) := by
  unfold matchAt at h
  cases hp : parseLit l with
  | some tv =>
    obtain ⟨tl, v⟩ := tv
    rw [hp] at h
    dsimp only at h
    cases hc : crlfAt (l.drop tl) with
    | some k =>
      rw [hc] at h
      injection h with h1
      injection h1 with ha hb
      exact Or.inl ⟨tl, v, k, rfl, hc, ha.symm, hb.symm⟩
    | none => rw [hc] at h; exact absurd h (by simp)
  | none =>
    rw [hp] at h
    dsimp only at h
    cases hc : crlfAt l with
    | some k =>
      rw [hc] at h
      injection h with h1
      injection h1 with ha hb
      exact Or.inr ⟨k, rfl, rfl, ha.symm, hb.symm⟩
    | none => rw [hc] at h; exact absurd h (by simp)

theorem matchAt_none_inv {l : List Char} (h : matchAt l = none) :
    (∃ tl v, parseLit l = some (tl, v) ∧ crlfAt (l.drop tl) = none) ∨
    (parseLit l = none ∧ crlfAt l = none) := by
  unfold matchAt at h
  cases hp : parseLit l with
  | some tv =>
    obtain ⟨tl, v⟩ := tv
    rw [hp] at h
    dsimp only at h
    cases hc : crlfAt (l.drop tl) with
    | some k => rw [hc] at h; exact absurd h (by simp)
    | none => exact Or.inl ⟨tl, v, rfl, hc⟩
  | none =>
    rw [hp] at h
    dsimp only at h
    cases hc : crlfAt l with
    | some k => rw [hc] at h; exact absurd h (by simp)
    | none => exact Or.inr ⟨rfl, rfl⟩

/-! #### matchAt lemmas -/

theorem matchAt_append {l : List Char} {len : Nat} {lo : Option Nat} (b : List Char)
    (h : matchAt l = some (len, lo)) : matchAt (l ++ b) = some (len, lo) := by
  rcases matchAt_inv h with ⟨tl, v, k, hp, hc, hlen, hlo⟩ | ⟨k, hp, hc, hlen, hlo⟩
  · subst hlen hlo
    have htl : tl ≤ l.length := (parseLit_bound hp).2
    have hc' : crlfAt ((l ++ b).drop tl) = some k := by
      rw [List.drop_append_of_le_length htl]
      exact crlfAt_append b hc
    exact matchAt_eval_lit (parseLit_append b hp) hc'
  · subst hlen hlo
    have hplb : parseLit (l ++ b) = none := by
      rcases crlfAt_shape hc with ⟨_, w, hw⟩ | ⟨_, w, hw⟩ <;> subst hw <;>
        exact parseLit_cons_ne _ (by decide)
    exact matchAt_eval_plain hplb (crlfAt_append b hc)

theorem matchAt_bound {l : List Char} {len : Nat} {lo : Option Nat}
    (h : matchAt l = some (len, lo)) : 1 ≤ len ∧ len ≤ l.length := by
  rcases matchAt_inv h with ⟨tl, v, k, hp, hc, hlen, hlo⟩ | ⟨k, hp, hc, hlen, hlo⟩
  · have htl : tl ≤ l.length := (parseLit_bound hp).2
    have htl2 : 2 ≤ tl := (parseLit_bound hp).1
    have hdl : (l.drop tl).length = l.length - tl := List.length_drop tl l
    have hk : 1 ≤ k ∧ k ≤ (l.drop tl).length := by
      rcases crlfAt_shape hc with ⟨hk1, w, hw⟩ | ⟨hk1, w, hw⟩ <;> rw [hw] <;>
        simp only [List.length_cons] <;> omega
    omega
  · have hk : 1 ≤ k ∧ k ≤ l.length := by
      rcases crlfAt_shape hc with ⟨hk1, w, hw⟩ | ⟨hk1, w, hw⟩ <;> subst hw <;>
        simp only [List.length_cons] <;> omega
    omega

theorem matchAt_newline {l : List Char} {len : Nat} {lo : Option Nat}
    (h : matchAt l = some (len, lo)) : '\n' ∈ l.take len := by
  rcases matchAt_inv h with ⟨tl, v, k, hp, hc, hlen, hlo⟩ | ⟨k, hp, hc, hlen, hlo⟩
  · have hmem : '\n' ∈ (l.drop tl).take k := by
      rcases crlfAt_shape hc with ⟨hk, w, hw⟩ | ⟨hk, w, hw⟩ <;> subst hk <;> rw [hw] <;> simp
    rw [hlen, List.take_add]
    exact List.mem_append_right _ hmem
  · rcases crlfAt_shape hc with ⟨hk, w, hw⟩ | ⟨hk, w, hw⟩ <;> subst hlen hk <;> rw [hw] <;>
      simp

/-- No character of a literal token is a newline. -/
theorem token_no_newline {pre : List Char}
    (hchars : ∀ c ∈ pre, c = '{' ∨ c = '}' ∨ c = '+' ∨ c.isDigit) : '\n' ∉ pre := by
  intro hmem
  rcases hchars '\n' hmem with h | h | h | h
  · exact absurd h (by decide)
  · exact absurd h (by decide)
  · exact absurd h (by decide)
  · exact absurd h (by decide)

/-- A failed match at a position containing a newline stays failed when more
input is appended. -/
theorem matchAt_none_append {l : List Char} (b : List Char)
    (h : matchAt l = none) (hn : '\n' ∈ l) : matchAt (l ++ b) = none := by
  cases hp : parseLit (l ++ b) with
  | none =>
    rcases matchAt_none_inv h with ⟨tl, v, hpl, _⟩ | ⟨hpl, hcl⟩
    · exact absurd (parseLit_append b hpl) (by rw [hp]; simp)
    · exact matchAt_eval_plain_none hp (crlfAt_none_append b hcl hn)
  | some tv =>
    obtain ⟨tl, v⟩ := tv
    by_cases hle : tl ≤ l.length
    · have hpl : parseLit l = some (tl, v) := parseLit_truncate hp hle
      rcases matchAt_none_inv h with ⟨tl', v', hpl', hc⟩ | ⟨hpl', _⟩
      · rw [hpl] at hpl'
        injection hpl' with h1
        injection h1 with ha hb
        subst ha hb
        obtain ⟨pre, hsplit, hlen, hchars⟩ := parseLit_drop hpl
        have hpre : '\n' ∉ pre := token_no_newline hchars
        have hx : '\n' ∈ l.drop tl := by
          rcases List.mem_append.mp (hsplit ▸ hn) with hmem | hmem
          · exact absurd hmem hpre
          · exact hmem
        have hc' : crlfAt ((l ++ b).drop tl) = none := by
          rw [List.drop_append_of_le_length hle]
          exact crlfAt_none_append b hc hx
        exact matchAt_eval_lit_none hp hc'
      · rw [hpl] at hpl'; exact absurd hpl' (by simp)
    · exfalso
      obtain ⟨pre, hsplit, hlen, hchars⟩ := parseLit_drop hp
      have hl : l = pre.take l.length := by
        have h0 : (l ++ b).take l.length = l := by
          rw [List.take_append_of_le_length (le_refl _), List.take_length]
        conv_lhs => rw [← h0]
        rw [hsplit, List.take_append_of_le_length (by omega)]
      have hmem : '\n' ∈ pre := List.take_subset _ _ (hl ▸ hn)
      exact token_no_newline hchars hmem

/-! #### findMatch evaluation and inversion -/

theorem findMatch_cons_some {c : Char} {rest : List Char} {len : Nat} {lo : Option Nat}
    (hm : matchAt (c :: rest) = some (len, lo)) :
    findMatch (c :: rest) = some (0, len, lo) := by
  unfold findMatch
  rw [hm]

theorem findMatch_cons_shift {c : Char} {rest : List Char} {i len : Nat} {lo : Option Nat}
    (hm : matchAt (c :: rest) = none) (hf : findMatch rest = some (i, len, lo)) :
    findMatch (c :: rest) = some (i + 1, len, lo) := by
  unfold findMatch
  rw [hm]
  dsimp only
  rw [hf]

theorem findMatch_cons_none {c : Char} {rest : List Char}
    (hm : matchAt (c :: rest) = none) (hf : findMatch rest = none) :
    findMatch (c :: rest) = none := by
  unfold findMatch
  rw [hm]
  dsimp only
  rw [hf]

theorem findMatch_cons_inv {c : Char} {rest : List Char} {i len : Nat} {lo : Option Nat}
    (h : findMatch (c :: rest) = some (i, len, lo)) :
    (i = 0 ∧ matchAt (c :: rest) = some (len, lo)) ∨
    (∃ i', i = i' + 1 ∧ matchAt (c :: rest) = none ∧ findMatch rest = some (i', len, lo)) := by
  unfold findMatch at h
  cases hm : matchAt (c :: rest) with
  | some p =>
    obtain ⟨len', lo'⟩ := p
    rw [hm] at h
    dsimp only at h
    injection h with h1
    injection h1 with ha hb
    injection hb with hb1 hb2
    subst ha hb1 hb2
    exact Or.inl ⟨rfl, rfl⟩
  | none =>
    rw [hm] at h
    dsimp only at h
    cases hf : findMatch rest with
    | some q =>
      obtain ⟨i', len', lo'⟩ := q
      rw [hf] at h
      injection h with h1
      injection h1 with ha hb
      injection hb with hb1 hb2
      subst ha hb1 hb2
      exact Or.inr ⟨i', rfl, rfl, rfl⟩
    | none => rw [hf] at h; exact absurd h (by simp)

/-! #### findMatch lemmas -/

theorem findMatch_bound {l : List Char} {i len : Nat} {lo : Option Nat}
    (h : findMatch l = some (i, len, lo)) : 1 ≤ len ∧ i + len ≤ l.length := by
  induction l generalizing i with
  | nil => simp [findMatch] at h
  | cons c rest ih =>
    rcases findMatch_cons_inv h with ⟨hi, hm⟩ | ⟨i', hi, hm, hf⟩
    · obtain ⟨h1, h2⟩ := matchAt_bound hm
      subst hi
      simpa using ⟨h1, h2⟩
    · obtain ⟨h1, h2⟩ := ih hf
      subst hi
      simp only [List.length_cons]
      omega

theorem findMatch_newline {l : List Char} {i len : Nat} {lo : Option Nat}
    (h : findMatch l = some (i, len, lo)) : '\n' ∈ l := by
  induction l generalizing i with
  | nil => simp [findMatch] at h
  | cons c rest ih =>
    rcases findMatch_cons_inv h with ⟨_, hm⟩ | ⟨i', _, hm, hf⟩
    · exact List.take_subset _ _ (matchAt_newline hm)
    · exact List.mem_cons_of_mem c (ih hf)

/-- The leftmost match of the framing regex is unaffected by appending more
input: appended bytes can neither move nor change an existing match. -/
theorem findMatch_append {l : List Char} {i len : Nat} {lo : Option Nat} (b : List Char)
    (h : findMatch l = some (i, len, lo)) : findMatch (l ++ b) = some (i, len, lo) := by
  induction l generalizing i with
  | nil => simp [findMatch] at h
  | cons c rest ih =>
    have hca : (c :: rest) ++ b = c :: (rest ++ b) := rfl
    rcases findMatch_cons_inv h with ⟨hi, hm⟩ | ⟨i', hi, hm, hf⟩
    · subst hi
      rw [hca]
      exact findMatch_cons_some (matchAt_append b hm)
    · subst hi
      have hnl : '\n' ∈ c :: rest := List.mem_cons_of_mem c (findMatch_newline hf)
      rw [hca]
      exact findMatch_cons_shift (matchAt_none_append b hm hnl) (ih hf)


/-! #### The `_onData` loop -/

/-- Framer state: `_incomingBuffer`, `_command`, `_literalRemaining`, plus the
sequence of complete responses handed to `_addToServerQueue` so far. -/
structure FrameState where
  buffer : List Char
  command : List Char
  literalRemaining : Nat
  emitted : List (List Char)
deriving DecidableEq

/-- Guard `this._literalRemaining && this._literalRemaining > this._incomingBuffer.length`:
more literal bytes are owed than are buffered, so the framer returns and waits. -/
def waitingLiteral (st : FrameState) : Bool :=
  (st.literalRemaining != 0) && decide (st.buffer.length < st.literalRemaining)

/-- The while loop of `_onData` runs another iteration iff the buffer matches
`COMMAND_REGEX` and the literal-wait guard does not fire (firing returns from
the handler). -/
def canStep (st : FrameState) : Bool :=
  (findMatch st.buffer).isSome && !(waitingLiteral st)

/-- One iteration of the `_onData` while loop body. -/
def step (st : FrameState) : FrameState :=
  if st.literalRemaining ≠ 0 then
    { st with
      command := st.command ++ st.buffer.take st.literalRemaining
      buffer := st.buffer.drop st.literalRemaining
      literalRemaining := 0 }
  else
    match findMatch st.buffer with
    | some (i, len, some n) =>
      { st with
        literalRemaining := n
        command := st.command ++ st.buffer.take (i + len)
        buffer := st.buffer.drop (i + len) }
    | some (i, len, none) =>
      { st with
        command := []
        emitted := st.emitted ++ [st.command ++ st.buffer.take i]
        buffer := st.buffer.drop (i + len) }
    | none => st

theorem step_lit {st : FrameState} (h : st.literalRemaining ≠ 0) :
    step st =
      { st with
        command := st.command ++ st.buffer.take st.literalRemaining
        buffer := st.buffer.drop st.literalRemaining
        literalRemaining := 0 } := by
  unfold step
  rw [if_pos h]

theorem step_match_lit {st : FrameState} {i len n : Nat}
    (h0 : st.literalRemaining = 0) (hm : findMatch st.buffer = some (i, len, some n)) :
    step st =
      { st with
        literalRemaining := n
        command := st.command ++ st.buffer.take (i + len)
        buffer := st.buffer.drop (i + len) } := by
  unfold step
  rw [if_neg (by simp [h0]), hm]

theorem step_match_plain {st : FrameState} {i len : Nat}
    (h0 : st.literalRemaining = 0) (hm : findMatch st.buffer = some (i, len, none)) :
    step st =
      { st with
        command := []
        emitted := st.emitted ++ [st.command ++ st.buffer.take i]
        buffer := st.buffer.drop (i + len) } := by
  unfold step
  rw [if_neg (by simp [h0]), hm]

theorem canStep_unpack {st : FrameState} (h : canStep st = true) :
    (∃ i len lo, findMatch st.buffer = some (i, len, lo)) ∧
      (st.literalRemaining = 0 ∨ st.literalRemaining ≤ st.buffer.length) := by
  simp only [canStep, Bool.and_eq_true, Bool.not_eq_true'] at h
  obtain ⟨h1, h2⟩ := h
  constructor
  · cases hm : findMatch st.buffer with
    | none => rw [hm] at h1; simp at h1
    | some m => exact ⟨m.1, m.2.1, m.2.2, rfl⟩
  · simp only [waitingLiteral, Bool.and_eq_false_iff, bne_eq_false_iff_eq,
      decide_eq_false_iff_not, not_lt] at h2
    rcases h2 with h2 | h2
    · exact Or.inl h2
    · exact Or.inr h2

theorem step_buffer_lt {st : FrameState} (h : canStep st = true) :
    (step st).buffer.length < st.buffer.length := by
  obtain ⟨⟨i, len, lo, hm⟩, hlit⟩ := canStep_unpack h
  obtain ⟨hlen1, hlen2⟩ := findMatch_bound hm
  by_cases h0 : st.literalRemaining = 0
  · cases lo with
    | some n =>
      rw [step_match_lit h0 hm]
      simp only [List.length_drop]
      omega
    | none =>
      rw [step_match_plain h0 hm]
      simp only [List.length_drop]
      omega
  · rw [step_lit h0]
    simp only [List.length_drop]
    have : st.literalRemaining ≤ st.buffer.length := by
      rcases hlit with h1 | h1
      · exact absurd h1 h0
      · exact h1
    omega

/-- Fuel-indexed drain of the `_onData` while loop; a fuel of the buffer
length always suffices since every iteration consumes at least one byte. -/
def drainFuel : Nat → FrameState → FrameState
  | 0, st => st
  | n + 1, st => if canStep st then drainFuel n (step st) else st

/-- Run the `_onData` while loop to completion. -/
def drain (st : FrameState) : FrameState := drainFuel st.buffer.length st

theorem canStep_nil {st : FrameState} (h : st.buffer = []) : canStep st = false := by
  simp [canStep, h, findMatch]

theorem drainFuel_succ_eq (n : Nat) (st : FrameState) (h : st.buffer.length ≤ n) :
    drainFuel (n + 1) st = drainFuel n st := by
  induction n generalizing st with
  | zero =>
    have hnil : st.buffer = [] := List.length_eq_zero.mp (by omega)
    simp [drainFuel, canStep_nil hnil]
  | succ n ih =>
    by_cases hc : canStep st
    · have hlt := step_buffer_lt hc
      show (if canStep st then drainFuel (n + 1) (step st) else st)
          = (if canStep st then drainFuel n (step st) else st)
      rw [if_pos hc, if_pos hc, ih (step st) (by omega)]
    · show (if canStep st then drainFuel (n + 1) (step st) else st)
          = (if canStep st then drainFuel n (step st) else st)
      rw [if_neg hc, if_neg hc]

theorem drainFuel_eq_drain (n : Nat) (st : FrameState) (h : st.buffer.length ≤ n) :
    drainFuel n st = drain st := by
  induction n with
  | zero =>
    unfold drain
    have : st.buffer.length = 0 := by omega
    rw [this]
  | succ n ih =>
    by_cases hbl : st.buffer.length ≤ n
    · rw [drainFuel_succ_eq n st hbl, ih hbl]
    · have hbe : st.buffer.length = n + 1 := by omega
      unfold drain
      rw [hbe]

theorem drain_step {st : FrameState} (h : canStep st = true) :
    drain st = drain (step st) := by
  have h1 : 1 ≤ st.buffer.length := by
    obtain ⟨⟨i, len, lo, hm⟩, _⟩ := canStep_unpack h
    obtain ⟨hl1, hl2⟩ := findMatch_bound hm
    omega
  have hform : st.buffer.length = (st.buffer.length - 1) + 1 := by omega
  show drainFuel st.buffer.length st = _
  rw [hform]
  show (if canStep st then drainFuel (st.buffer.length - 1) (step st) else st) = _
  rw [if_pos h]
  exact drainFuel_eq_drain _ _ (by have := step_buffer_lt h; omega)

theorem drain_stuck {st : FrameState} (h : canStep st = false) : drain st = st := by
  unfold drain
  cases hbl : st.buffer.length with
  | zero => rfl
  | succ n =>
    show (if canStep st then drainFuel n (step st) else st) = st
    rw [if_neg (by rw [h]; exact Bool.false_ne_true)]

theorem canStep_drain_aux (n : Nat) : ∀ st : FrameState, st.buffer.length ≤ n →
    canStep (drain st) = false := by
  induction n with
  | zero =>
    intro st h
    have hnil : st.buffer = [] := List.length_eq_zero.mp (by omega)
    rw [drain_stuck (canStep_nil hnil)]
    exact canStep_nil hnil
  | succ n ih =>
    intro st h
    by_cases hc : canStep st
    · rw [drain_step hc]
      exact ih (step st) (by have := step_buffer_lt hc; omega)
    · rw [drain_stuck (Bool.eq_false_iff.mpr hc)]
      exact Bool.eq_false_iff.mpr hc

theorem canStep_drain (st : FrameState) : canStep (drain st) = false :=
  canStep_drain_aux st.buffer.length st (le_refl _)

theorem FrameState.fieldEq {a b : FrameState} (h1 : a.buffer = b.buffer)
    (h2 : a.command = b.command) (h3 : a.literalRemaining = b.literalRemaining)
    (h4 : a.emitted = b.emitted) : a = b := by
  cases a; cases b
  cases h1; cases h2; cases h3; cases h4
  rfl

/-- Append an inbound chunk to the incoming buffer:
`this._incomingBuffer += mimefuncs.fromTypedArray(evt.data)`. -/
def appendBuf (b : List Char) (st : FrameState) : FrameState :=
  { st with buffer := st.buffer ++ b }

theorem step_append {st : FrameState} (b : List Char) (h : canStep st = true) :
    canStep (appendBuf b st) = true ∧ step (appendBuf b st) = appendBuf b (step st) := by
  obtain ⟨⟨i, len, lo, hm⟩, hlit⟩ := canStep_unpack h
  obtain ⟨hlen1, hlen2⟩ := findMatch_bound hm
  have hm' : findMatch (st.buffer ++ b) = some (i, len, lo) := findMatch_append b hm
  constructor
  · simp only [canStep, appendBuf, hm', Option.isSome_some, Bool.true_and,
      Bool.not_eq_true', waitingLiteral, Bool.and_eq_false_iff, bne_eq_false_iff_eq,
      decide_eq_false_iff_not, not_lt, List.length_append]
    rcases hlit with h1 | h1
    · exact Or.inl h1
    · exact Or.inr (by omega)
  · by_cases h0 : st.literalRemaining = 0
    · cases lo with
      | some n =>
        rw [step_match_lit h0 hm,
          @step_match_lit (appendBuf b st) i len n (by exact h0) (by exact hm')]
        apply FrameState.fieldEq
        · show (st.buffer ++ b).drop (i + len) = st.buffer.drop (i + len) ++ b
          exact List.drop_append_of_le_length (by omega)
        · show st.command ++ (st.buffer ++ b).take (i + len)
              = st.command ++ st.buffer.take (i + len)
          rw [List.take_append_of_le_length (by omega)]
        · rfl
        · rfl
      | none =>
        rw [step_match_plain h0 hm,
          @step_match_plain (appendBuf b st) i len (by exact h0) (by exact hm')]
        apply FrameState.fieldEq
        · show (st.buffer ++ b).drop (i + len) = st.buffer.drop (i + len) ++ b
          exact List.drop_append_of_le_length (by omega)
        · rfl
        · rfl
        · show st.emitted ++ [st.command ++ (st.buffer ++ b).take i]
              = st.emitted ++ [st.command ++ st.buffer.take i]
          rw [List.take_append_of_le_length (by omega)]
    · have hle : st.literalRemaining ≤ st.buffer.length := by
        rcases hlit with h1 | h1
        · exact absurd h1 h0
        · exact h1
      rw [step_lit h0, @step_lit (appendBuf b st) (by exact h0)]
      apply FrameState.fieldEq
      · show (st.buffer ++ b).drop st.literalRemaining
            = st.buffer.drop st.literalRemaining ++ b
        exact List.drop_append_of_le_length hle
      · show st.command ++ (st.buffer ++ b).take st.literalRemaining
            = st.command ++ st.buffer.take st.literalRemaining
        rw [List.take_append_of_le_length hle]
      · rfl
      · rfl

theorem drain_append_aux (b : List Char) :
    ∀ (n : Nat) (st : FrameState), st.buffer.length ≤ n →
      drain (appendBuf b (drain st)) = drain (appendBuf b st) := by
  intro n
  induction n with
  | zero =>
    intro st h
    have hnil : st.buffer = [] := List.length_eq_zero.mp (by omega)
    rw [drain_stuck (canStep_nil hnil)]
  | succ n ih =>
    intro st h
    by_cases hc : canStep st
    · obtain ⟨hc', hstep⟩ := step_append b hc
      rw [drain_step hc, ih (step st) (by have := step_buffer_lt hc; omega),
        ← hstep, ← drain_step hc']
    · rw [drain_stuck (Bool.eq_false_iff.mpr hc)]

/-- Draining commutes with appending further input: draining now and appending
later reaches the same state as appending first. -/
theorem drain_append (b : List Char) (st : FrameState) :
    drain (appendBuf b (drain st)) = drain (appendBuf b st) :=
  drain_append_aux b st.buffer.length st (le_refl _)

/-- `_onData`: append the inbound chunk to the incoming buffer and run the
framing loop to completion. -/
def onData (chunk : List Char) (st : FrameState) : FrameState :=
  drain (appendBuf chunk st)

theorem onData_onData (a b : List Char) (st : FrameState) :
    onData b (onData a st) = onData (a ++ b) st := by
  unfold onData
  rw [drain_append b (appendBuf a st)]
  congr 1
  unfold appendBuf
  simp

/-- Framer state at construction: empty buffer, empty pending command, no
literal bytes owed, nothing emitted. -/
def initialFrameState : FrameState := ⟨[], [], 0, []⟩

/-- Feed a sequence of inbound chunks to `_onData` one after the other. -/
def processChunks (st : FrameState) (chunks : List (List Char)) : FrameState :=
  chunks.foldl (fun s c => onData c s) st

theorem processChunks_onData (a : List Char) (cs : List (List Char)) (st : FrameState) :
    processChunks (onData a st) cs = onData (a ++ cs.flatten) st := by
  induction cs generalizing a with
  | nil => simp [processChunks]
  | cons c cs' ih =>
    show processChunks (onData c (onData a st)) cs' = _
    rw [onData_onData a c st, ih (a ++ c)]
    congr 1
    simp

theorem processChunks_eq_onData_join (chunks : List (List Char)) :
    processChunks initialFrameState chunks = onData chunks.flatten initialFrameState := by
  cases chunks with
  | nil =>
    show initialFrameState = onData [] initialFrameState
    rfl
  | cons c cs =>
    show processChunks (onData c initialFrameState) cs = _
    rw [processChunks_onData, List.flatten_cons]

/-- C1: For every inbound byte stream and every partition of that stream into
chunks fed successively to the framer (`_onData`), the sequence of complete
framed responses handed to the dispatcher is identical to the sequence
produced when the whole stream is delivered as a single chunk, correctly
accounting for `{N}` and `{N+}` literal prefixes whose bodies may contain
CRLFs. -/
theorem framer_chunking_invariant (chunks : List (List Char)) :
    (processChunks initialFrameState chunks).emitted =
      (onData chunks.flatten initialFrameState).emitted := by
  rw [processChunks_eq_onData_join]


/-! #### Locating the match around a `{0}` literal (claim C8) -/

theorem parseLit_brace (rest : List Char) :
    parseLit ('{' :: rest) = parseLitTail (digitSpan rest).1 (digitSpan rest).2 := by
  simp [parseLit]

theorem crlfAt_none_nolf_brace (w rest : List Char) (hw : ∀ x ∈ w, x ≠ '\n') :
    crlfAt (w ++ '{' :: rest) = none := by
  cases w with
  | nil => exact crlfAt_cons_other rest (by decide) (by decide)
  | cons y w' =>
    have hy : y ≠ '\n' := hw y (by simp)
    by_cases hyr : y = '\r'
    · subst hyr
      cases w' with
      | nil => exact crlfAt_cr_other rest (by decide)
      | cons z w'' => exact crlfAt_cr_other _ (hw z (by simp))
    · exact crlfAt_cons_other _ hy hyr

/-- A position strictly before an opening brace, with no newline in between,
cannot match the framing regex: a literal token cannot contain an interior
brace, and no bare terminator occurs. -/
theorem matchAt_none_brace (u rest : List Char) (hne : u ≠ [])
    (hu : ∀ c ∈ u, c ≠ '\n') : matchAt (u ++ '{' :: rest) = none := by
  cases hp : parseLit (u ++ '{' :: rest) with
  | none => exact matchAt_eval_plain_none hp (crlfAt_none_nolf_brace u rest hu)
  | some tv =>
    obtain ⟨tl, v⟩ := tv
    by_cases hle : tl ≤ u.length
    · have hdrop : (u ++ '{' :: rest).drop tl = u.drop tl ++ '{' :: rest :=
        List.drop_append_of_le_length hle
      have hcr : crlfAt ((u ++ '{' :: rest).drop tl) = none := by
        rw [hdrop]
        exact crlfAt_none_nolf_brace (u.drop tl) rest
          (fun x hx => hu x (List.drop_subset _ _ hx))
      exact matchAt_eval_lit_none hp hcr
    · exfalso
      obtain ⟨ds, r2, hdig, hdsne, hv, hcase⟩ := parseLit_shape hp
      have hulen : 1 ≤ u.length := by
        cases u with
        | nil => exact absurd rfl hne
        | cons a u' => simp
      have hdrop_u : (u ++ '{' :: rest).drop u.length = '{' :: rest := List.drop_left u _
      rcases hcase with ⟨hl, htl⟩ | ⟨hl, htl⟩
      · have hl2 : u ++ '{' :: rest = ('{' :: (ds ++ ['}'])) ++ r2 := by rw [hl]; simp
        have hlt : u.length - 1 < (ds ++ ['}']).length := by simp; omega
        have hdrop2 : (u ++ '{' :: rest).drop u.length
            = (ds ++ ['}']).drop (u.length - 1) ++ r2 := by
          rw [hl2]
          have hue : u.length = (u.length - 1) + 1 := by omega
          rw [hue, List.drop_append_of_le_length (by simp; omega)]
          rfl
        have hform : '{' :: rest = (ds ++ ['}']).drop (u.length - 1) ++ r2 := by
          rw [← hdrop_u, hdrop2]
        have hdne : (ds ++ ['}']).drop (u.length - 1) ≠ [] := by
          intro hz
          have := List.length_drop (u.length - 1) (ds ++ ['}'])
          rw [hz] at this
          simp at this
          omega
        obtain ⟨a, w', hw⟩ := List.exists_cons_of_ne_nil hdne
        have hmem : a ∈ ds ++ ['}'] := List.drop_subset _ _ (hw ▸ List.mem_cons_self a w')
        have ha : a = '{' := by
          rw [hw] at hform
          rw [List.cons_append] at hform
          injection hform with h1 _
          exact h1.symm
        subst ha
        rcases List.mem_append.mp hmem with hm1 | hm2
        · have := hdig _ hm1
          exact absurd this (by decide)
        · simp at hm2
      · have hl2 : u ++ '{' :: rest = ('{' :: (ds ++ ['+', '}'])) ++ r2 := by rw [hl]; simp
        have hlt : u.length - 1 < (ds ++ ['+', '}']).length := by simp; omega
        have hdrop2 : (u ++ '{' :: rest).drop u.length
            = (ds ++ ['+', '}']).drop (u.length - 1) ++ r2 := by
          rw [hl2]
          have hue : u.length = (u.length - 1) + 1 := by omega
          rw [hue, List.drop_append_of_le_length (by simp; omega)]
          rfl
        have hform : '{' :: rest = (ds ++ ['+', '}']).drop (u.length - 1) ++ r2 := by
          rw [← hdrop_u, hdrop2]
        have hdne : (ds ++ ['+', '}']).drop (u.length - 1) ≠ [] := by
          intro hz
          have := List.length_drop (u.length - 1) (ds ++ ['+', '}'])
          rw [hz] at this
          simp at this
          omega
        obtain ⟨a, w', hw⟩ := List.exists_cons_of_ne_nil hdne
        have hmem : a ∈ ds ++ ['+', '}'] := List.drop_subset _ _ (hw ▸ List.mem_cons_self a w')
        have ha : a = '{' := by
          rw [hw] at hform
          rw [List.cons_append] at hform
          injection hform with h1 _
          exact h1.symm
        subst ha
        rcases List.mem_append.mp hmem with hm1 | hm2
        · have := hdig _ hm1
          exact absurd this (by decide)
        · rcases List.mem_cons.mp hm2 with hm3 | hm4
          · exact absurd hm3 (by decide)
          · simp at hm4

/-- A position strictly before a CRLF, separated from it only by characters
that are neither newlines nor opening braces, cannot match the framing
regex. -/
theorem matchAt_none_before_crlf (u t : List Char) (hne : u ≠ [])
    (hu : ∀ c ∈ u, c ≠ '\n' ∧ c ≠ '{') :
    matchAt (u ++ '\r' :: '\n' :: t) = none := by
  match u with
  | [] => exact absurd rfl hne
  | c :: u' =>
    obtain ⟨hcn, hcb⟩ := hu c (by simp)
    have hp : parseLit ((c :: u') ++ '\r' :: '\n' :: t) = none := parseLit_cons_ne _ hcb
    by_cases hcr : c = '\r'
    · subst hcr
      cases u' with
      | nil => exact matchAt_eval_plain_none hp (crlfAt_cr_other _ (by decide))
      | cons d u'' =>
        exact matchAt_eval_plain_none hp (crlfAt_cr_other _ (hu d (by simp)).1)
    · exact matchAt_eval_plain_none hp (crlfAt_cons_other _ hcn hcr)

/-- When no match exists inside `s`, the leftmost match of `s ++ r` is the
leftmost match of `r`, shifted. -/
theorem findMatch_shift (s r : List Char)
    (h : ∀ u : List Char, u ≠ [] → (∃ w, w ++ u = s) → matchAt (u ++ r) = none) :
    findMatch (s ++ r) = (findMatch r).map (fun m => (m.1 + s.length, m.2)) := by
  induction s with
  | nil =>
    cases hf : findMatch r with
    | none => simp [hf]
    | some m => simp [hf]
  | cons c s' ih =>
    have hhead : matchAt ((c :: s') ++ r) = none := h (c :: s') (by simp) ⟨[], rfl⟩
    have htail : ∀ u, u ≠ [] → (∃ w, w ++ u = s') → matchAt (u ++ r) = none := by
      intro u hu hex
      obtain ⟨w, hw⟩ := hex
      exact h u hu ⟨c :: w, by rw [← hw]; rfl⟩
    show findMatch (c :: (s' ++ r)) = _
    cases hf : findMatch r with
    | none =>
      have hnone : findMatch (s' ++ r) = none := by rw [ih htail, hf]; rfl
      rw [findMatch_cons_none (by exact hhead) hnone]
      rfl
    | some m =>
      obtain ⟨i, len, lo⟩ := m
      have hs' : findMatch (s' ++ r) = some (i + s'.length, len, lo) := by
        rw [ih htail, hf]; rfl
      rw [findMatch_cons_shift (by exact hhead) hs']
      show some (i + s'.length + 1, len, lo) = some (i + (c :: s').length, len, lo)
      rw [List.length_cons, Nat.add_assoc]

theorem matchAt_litzero (t : List Char) :
    matchAt ('{' :: '0' :: '}' :: '\r' :: '\n' :: t) = some (5, some 0) := by
  have hp : parseLit ('{' :: '0' :: '}' :: '\r' :: '\n' :: t) = some (3, 0) := by
    have h := parseLit_eval_syn ['0'] ('\r' :: '\n' :: t) (by decide) (by decide)
    exact h
  have hc : crlfAt (('{' :: '0' :: '}' :: '\r' :: '\n' :: t).drop 3) = some 2 := by
    show crlfAt ('\r' :: '\n' :: t) = some 2
    exact crlfAt_crlf t
  have h := matchAt_eval_lit hp hc
  exact h

theorem matchAt_crlf_head (t : List Char) :
    matchAt ('\r' :: '\n' :: t) = some (2, none) :=
  matchAt_eval_plain (parseLit_cons_ne _ (by decide)) (crlfAt_crlf t)

theorem findMatch_litzero (s t : List Char) (hs : ∀ c ∈ s, c ≠ '\n') :
    findMatch (s ++ '{' :: '0' :: '}' :: '\r' :: '\n' :: t) = some (s.length, 5, some 0) := by
  rw [findMatch_shift s _ (fun u hne hex => by
    obtain ⟨w, hw⟩ := hex
    exact matchAt_none_brace u _ hne (fun c hc =>
      hs c (by rw [← hw]; exact List.mem_append_right _ hc)))]
  rw [findMatch_cons_some (matchAt_litzero t)]
  show some (0 + s.length, 5, some 0) = _
  rw [Nat.zero_add]

theorem findMatch_plain_crlf (t w : List Char) (ht : ∀ c ∈ t, c ≠ '\n' ∧ c ≠ '{') :
    findMatch (t ++ '\r' :: '\n' :: w) = some (t.length, 2, none) := by
  rw [findMatch_shift t _ (fun u hne hex => by
    obtain ⟨v, hv⟩ := hex
    exact matchAt_none_before_crlf u w hne (fun c hc =>
      ht c (by rw [← hv]; exact List.mem_append_right _ hc)))]
  rw [findMatch_cons_some (matchAt_crlf_head w)]
  show some (0 + t.length, 2, none) = _
  rw [Nat.zero_add]


/-- Intermediate state after the framer consumes a line ending in `{0}` plus
its terminator: the whole prefix is buffered into the pending command, zero
literal bytes are owed, and nothing has been emitted. -/
theorem onData_litzero_head (s : List Char) (hs : ∀ c ∈ s, c ≠ '\n') :
    onData (s ++ ['{', '0', '}', '\r', '\n']) initialFrameState =
      { buffer := [], command := s ++ ['{', '0', '}', '\r', '\n'],
        literalRemaining := 0, emitted := [] } := by
  have hst1 : appendBuf (s ++ ['{', '0', '}', '\r', '\n']) initialFrameState
      = { buffer := s ++ ['{', '0', '}', '\r', '\n'], command := [],
          literalRemaining := 0, emitted := [] } := by
    apply FrameState.fieldEq
    · show [] ++ (s ++ ['{', '0', '}', '\r', '\n']) = s ++ ['{', '0', '}', '\r', '\n']
      rw [List.nil_append]
    · rfl
    · rfl
    · rfl
  have hfm : findMatch ((⟨s ++ ['{', '0', '}', '\r', '\n'], [], 0, []⟩ :
      FrameState)).buffer = some (s.length, 5, some 0) := findMatch_litzero s [] hs
  have hcs : canStep (⟨s ++ ['{', '0', '}', '\r', '\n'], [], 0, []⟩ : FrameState)
      = true := by
    simp [canStep, waitingLiteral, hfm]
  have hstep : step (⟨s ++ ['{', '0', '}', '\r', '\n'], [], 0, []⟩ : FrameState)
      = { buffer := [], command := s ++ ['{', '0', '}', '\r', '\n'],
          literalRemaining := 0, emitted := [] } := by
    rw [step_match_lit rfl hfm]
    apply FrameState.fieldEq
    · show (s ++ ['{', '0', '}', '\r', '\n']).drop (s.length + 5) = []
      apply List.drop_eq_nil_of_le
      simp
    · show [] ++ (s ++ ['{', '0', '}', '\r', '\n']).take (s.length + 5)
          = s ++ ['{', '0', '}', '\r', '\n']
      rw [List.nil_append]
      apply List.take_of_length_le
      simp
    · rfl
    · rfl
  unfold onData
  rw [hst1, drain_step hcs, hstep, drain_stuck (canStep_nil rfl)]

/-- C8: for every inbound stream containing a line that ends with the literal
prefix `{0}` followed by a line terminator, the framer treats the literal body
as empty and the bytes immediately after the terminator continue the same
response: nothing is emitted at that terminator (the whole prefix stays in
the pending command with zero literal bytes owed), and the response is
emitted only at the next terminator outside a literal body, carrying the
continuation bytes in the same response. -/
theorem framer_literal_zero (s t : List Char)
    (hs : ∀ c ∈ s, c ≠ '\n')
    (ht : ∀ c ∈ t, c ≠ '\n' ∧ c ≠ '{') :
    onData (s ++ ['{', '0', '}', '\r', '\n']) initialFrameState =
      { buffer := [], command := s ++ ['{', '0', '}', '\r', '\n'],
        literalRemaining := 0, emitted := [] } ∧
    onData ((s ++ ['{', '0', '}', '\r', '\n']) ++ (t ++ ['\r', '\n']))
        initialFrameState =
      { buffer := [], command := [], literalRemaining := 0,
        emitted := [(s ++ ['{', '0', '}', '\r', '\n']) ++ t] } := by
  refine ⟨onData_litzero_head s hs, ?_⟩
  rw [← onData_onData (s ++ ['{', '0', '}', '\r', '\n']) (t ++ ['\r', '\n'])
    initialFrameState, onData_litzero_head s hs]
  have hst3 : appendBuf (t ++ ['\r', '\n'])
      ({ buffer := [], command := s ++ ['{', '0', '}', '\r', '\n'],
         literalRemaining := 0, emitted := [] } : FrameState)
      = { buffer := t ++ ['\r', '\n'], command := s ++ ['{', '0', '}', '\r', '\n'],
          literalRemaining := 0, emitted := [] } := by
    apply FrameState.fieldEq
    · show [] ++ (t ++ ['\r', '\n']) = t ++ ['\r', '\n']
      rw [List.nil_append]
    · rfl
    · rfl
    · rfl
  have hfm2 : findMatch ((⟨t ++ ['\r', '\n'], s ++ ['{', '0', '}', '\r', '\n'], 0, []⟩ :
      FrameState)).buffer = some (t.length, 2, none) := findMatch_plain_crlf t [] ht
  have hcs2 : canStep (⟨t ++ ['\r', '\n'], s ++ ['{', '0', '}', '\r', '\n'], 0, []⟩ :
      FrameState) = true := by
    simp [canStep, waitingLiteral, hfm2]
  have hstep2 : step (⟨t ++ ['\r', '\n'], s ++ ['{', '0', '}', '\r', '\n'], 0, []⟩ :
      FrameState)
      = { buffer := [], command := [], literalRemaining := 0,
          emitted := [(s ++ ['{', '0', '}', '\r', '\n']) ++ t] } := by
    rw [step_match_plain rfl hfm2]
    apply FrameState.fieldEq
    · show (t ++ ['\r', '\n']).drop (t.length + 2) = []
      apply List.drop_eq_nil_of_le
      simp
    · rfl
    · rfl
    · show [] ++ [(s ++ ['{', '0', '}', '\r', '\n']) ++ (t ++ ['\r', '\n']).take t.length]
          = [(s ++ ['{', '0', '}', '\r', '\n']) ++ t]
      rw [List.nil_append, List.take_append_of_le_length (le_refl _), List.take_length]
  unfold onData
  rw [hst3, drain_step hcs2, hstep2, drain_stuck (canStep_nil rfl)]

/-- Witness for C8 at a concrete input: the line `* A {0}` with continuation
bytes `ok` before the closing terminator. -/
theorem framer_literal_zero_witness :
    ((∀ c ∈ ['*', ' ', 'A', ' '], c ≠ '\n') ∧
      (∀ c ∈ ['o', 'k'], c ≠ '\n' ∧ c ≠ '{')) ∧
    (onData (['*', ' ', 'A', ' '] ++ ['{', '0', '}', '\r', '\n']) initialFrameState =
      { buffer := [], command := ['*', ' ', 'A', ' '] ++ ['{', '0', '}', '\r', '\n'],
        literalRemaining := 0, emitted := [] } ∧
    onData ((['*', ' ', 'A', ' '] ++ ['{', '0', '}', '\r', '\n']) ++
        (['o', 'k'] ++ ['\r', '\n'])) initialFrameState =
      { buffer := [], command := [], literalRemaining := 0,
        emitted := [(['*', ' ', 'A', ' '] ++ ['{', '0', '}', '\r', '\n']) ++ ['o', 'k']] }) :=
  ⟨⟨by decide, by decide⟩,
    framer_literal_zero ['*', ' ', 'A', ' '] ['o', 'k'] (by decide) (by decide)⟩


/-! ### Response enrichment and the completion callback
(`_processResponse` and the `callback` built in `enqueueCommand`) -/

/-- ASCII uppercase, as `String.prototype.toUpperCase` on the strings at
hand. -/
def asciiUpperChar (c : Char) : Char :=
  if 'a' ≤ c ∧ c ≤ 'z' then Char.ofNat (c.toNat - 32) else c

def asciiLowerChar (c : Char) : Char :=
  if 'A' ≤ c ∧ c ≤ 'Z' then Char.ofNat (c.toNat + 32) else c

def jsUpper (s : String) : String := String.mk (s.data.map asciiUpperChar)

def jsLower (s : String) : String := String.mk (s.data.map asciiLowerChar)

def isJsSpace (c : Char) : Bool :=
  (c = ' ') || (c = '\t') || (c = '\n') || (c = '\r')

/-- `String.prototype.trim`: strip whitespace from both ends. -/
def jsTrim (s : String) : String :=
  String.mk (((s.data.dropWhile isJsSpace).reverse.dropWhile isJsSpace).reverse)

/-- `(x || '').toString().toUpperCase().trim()`. -/
def upTrim (s : String) : String := jsTrim (jsUpper s)

/-- A JS value as produced by the response-code extraction: `undefined`, a
string, or an array of strings. -/
inductive JsVal where
  | undef
  | str (s : String)
  | strList (vs : List String)
deriving DecidableEq

/-- JS truthiness for such values: `undefined` and the empty string are
falsy; every array (even empty) is truthy. -/
def jsTruthy : JsVal → Bool
  | .undef => false
  | .str s => !s.isEmpty
  | .strList _ => true

/-- An element of an ATOM attribute's bracketed `section`, as consumed by
`_processResponse`: a token object with an optional `value`, a nested array
of such objects, or a falsy element. -/
inductive SecEl where
  | item (value : Option String)
  | arrEl (values : List (Option String))
  | nullEl
deriving DecidableEq

/-- The `section.map(...)` callback of `_processResponse`: falsy elements map
to `undefined`, arrays map element-wise to `(value || '').toString().trim()`,
and plain tokens map to `(value || '').toString().toUpperCase().trim()`. -/
def mapSecEl : SecEl → JsVal
  | .nullEl => .undef
  | .arrEl vs => .strList (vs.map (fun v => jsTrim (v.getD "")))
  | .item v => .str (upTrim (v.getD ""))

/-- A typed attribute of a parsed response AST (`type` is `ATOM`, `TEXT` or
something else; `value` and `section` may be absent). -/
inductive RespAttr where
  | atom (value : Option String) (sec : Option (List SecEl))
  | text (value : Option String)
  | other
deriving DecidableEq

/-- Value stored under the dynamic `response[key.toLowerCase()]` property:
the singleton is unwrapped, otherwise the list is kept. -/
inductive ExtraVal where
  | one (v : JsVal)
  | many (vs : List JsVal)
deriving DecidableEq

/-- A parsed response object.  `nr`, `code`, `humanReadable` and `extra` are
the properties added by normalization and `_processResponse`; the parser
collaborator leaves them absent. -/
structure Resp where
  tag : String
  command : Option String
  attributes : Option (List RespAttr)
  nr : Option Nat := none
  code : JsVal := JsVal.undef
  humanReadable : Option String := none
  extra : List (String × ExtraVal) := []
deriving DecidableEq

/-- `(response && response.command || '').toString().toUpperCase().trim()`. -/
def respCommandName (r : Resp) : String := upTrim (r.command.getD "")

/-- The truthy-chain
`response.attributes && response.attributes.length &&
 response.attributes[0].type === 'ATOM' && response.attributes[0].section &&
 response.attributes[0].section.map(...)`: the mapped option array, when the
chain holds.  An empty `section` still passes the chain (arrays are truthy)
and maps to the empty array. -/
def optionChain (r : Resp) : Option (List JsVal) :=
  match r.attributes with
  | some (RespAttr.atom _ (some sec) :: _) => some (sec.map mapSecEl)
  | _ => none

/-- The value of the last attribute when its type is `TEXT` (the attribute's
`value` itself may still be absent). -/
def lastTextAttr (r : Resp) : Option (Option String) :=
  match r.attributes with
  | some attrs =>
    match attrs.getLast? with
    | some (RespAttr.text v) => some v
    | _ => none
  | none => none

/-- The response-code extraction half of `_processResponse`:
`key = option.shift(); response.code = key;` and, when elements remain,
`response[key.toLowerCase()] = option.length === 1 ? option[0] : option`.
`key.toLowerCase()` throws a TypeError when `key` is `undefined` or an
array; the error propagates out of `_processServerResponse`, which has no
try block. -/
def applyCode (r : Resp) : Except Unit Resp :=
  match optionChain r with
  | some mapped =>
    let key := mapped.headD JsVal.undef
    let rest := mapped.tail
    if rest.length ≠ 0 then
      match key with
      | JsVal.str ks =>
        Except.ok { r with
          code := key
          extra := r.extra ++ [(jsLower ks,
            match rest with
            | [x] => ExtraVal.one x
            | _ => ExtraVal.many rest)] }
      | _ => Except.error ()
    else Except.ok { r with code := key }
  | none => Except.ok r

/-- The human-readable half of `_processResponse`: when the last attribute is
`TEXT`, copy its value to `response.humanReadable`. -/
def applyHumanReadable (r : Resp) : Resp :=
  match lastTextAttr r with
  | some v => { r with humanReadable := v }
  | none => r

/-- `_processResponse`: for `OK`/`NO`/`BAD`/`BYE`/`PREAUTH` responses, run
the response-code extraction and then the human-readable extraction; other
responses are untouched. -/
def processResponse (r : Resp) : Except Unit Resp :=
  if respCommandName r ∈ ["OK", "NO", "BAD", "BYE", "PREAUTH"] then
    (applyCode r).map applyHumanReadable
  else Except.ok r

/-- Terminal outcome delivered to a command's completion handle. -/
inductive Outcome where
  | resolved (r : Resp)
  | rejected (message : String) (code : Option JsVal)
deriving DecidableEq

/-- JS `a || b` for an optional string `a`: absent and empty are falsy. -/
def jsOrStr (o : Option String) (d : String) : String :=
  match o with
  | some s => if s = "" then d else s
  | none => d

/-- The completion callback built by `enqueueCommand` for a parsed response
(the `isError` branch never fires for parsed responses): reject with
`new Error(response.humanReadable || 'Error')` carrying `code` when
`response.code` is truthy whenever the command is `NO`/`BAD`
(case-insensitive, trimmed), resolve with the response otherwise. -/
def commandCallback (r : Resp) : Outcome :=
  if upTrim (r.command.getD "") ∈ ["NO", "BAD"] then
    Outcome.rejected (jsOrStr r.humanReadable "Error")
      (if jsTruthy r.code then some r.code else none)
  else Outcome.resolved r

/-- The extracted response code, i.e. what `_processResponse` stores into
`response.code` when the option chain holds. -/
def extractedCode (r : Resp) : JsVal :=
  match optionChain r with
  | some mapped => mapped.headD JsVal.undef
  | none => JsVal.undef

theorem applyCode_fields {r r1 : Resp} (hp : applyCode r = Except.ok r1) :
    r1.command = r.command ∧ r1.attributes = r.attributes ∧
      r1.humanReadable = r.humanReadable ∧
      r1.code = (match optionChain r with
                 | some mapped => mapped.headD JsVal.undef
                 | none => r.code) := by
  unfold applyCode at hp
  cases hoc : optionChain r with
  | none =>
    rw [hoc] at hp
    injection hp with h
    subst h
    exact ⟨rfl, rfl, rfl, rfl⟩
  | some mapped =>
    rw [hoc] at hp
    dsimp only at hp
    by_cases hrl : mapped.tail.length ≠ 0
    · rw [if_pos hrl] at hp
      cases hk : mapped.headD JsVal.undef with
      | str ks =>
        rw [hk] at hp
        injection hp with h
        subst h
        exact ⟨rfl, rfl, rfl, hk.symm⟩
      | undef => rw [hk] at hp; exact absurd hp (by simp)
      | strList vs => rw [hk] at hp; exact absurd hp (by simp)
    · rw [if_neg hrl] at hp
      injection hp with h
      subst h
      exact ⟨rfl, rfl, rfl, rfl⟩

theorem applyHumanReadable_fields (r : Resp) :
    (applyHumanReadable r).command = r.command ∧
      (applyHumanReadable r).code = r.code ∧
      (applyHumanReadable r).attributes = r.attributes ∧
      (applyHumanReadable r).humanReadable = (lastTextAttr r).getD r.humanReadable := by
  unfold applyHumanReadable
  cases hlt : lastTextAttr r with
  | some v => exact ⟨rfl, rfl, rfl, rfl⟩
  | none => exact ⟨rfl, rfl, rfl, rfl⟩

theorem lastTextAttr_congr {a b : Resp} (h : a.attributes = b.attributes) :
    lastTextAttr a = lastTextAttr b := by
  unfold lastTextAttr
  rw [h]

theorem processResponse_ok_in {r r2 : Resp}
    (hin : respCommandName r ∈ ["OK", "NO", "BAD", "BYE", "PREAUTH"])
    (hp : processResponse r = Except.ok r2) :
    ∃ r1, applyCode r = Except.ok r1 ∧ r2 = applyHumanReadable r1 := by
  unfold processResponse at hp
  rw [if_pos hin] at hp
  cases hac : applyCode r with
  | ok r1 =>
    rw [hac] at hp
    dsimp only [Except.map] at hp
    injection hp with h
    exact ⟨r1, rfl, h.symm⟩
  | error e =>
    rw [hac] at hp
    exact absurd hp (by simp [Except.map])

/-- C3: for every command whose tagged response has command name `NO` or
`BAD` (case-insensitive, trimmed), the completion callback rejects with an
Error whose message is the response's `humanReadable` text (or the default
`"Error"` when absent, `||`-falsy included) and which carries a `code`
property equal to the extracted response code when one is present (truthy);
for every tagged `OK` response it resolves with the (enriched) response
object instead.  `r` is the raw parsed response (its enrichment fields still
absent), `r2` the response after `_processResponse`. -/
theorem tagged_no_bad_rejects (r r2 : Resp)
    (hfresh : r.code = JsVal.undef ∧ r.humanReadable = none)
    (hp : processResponse r = Except.ok r2) :
    ((respCommandName r = "NO" ∨ respCommandName r = "BAD") →
      commandCallback r2 =
        Outcome.rejected (jsOrStr ((lastTextAttr r).getD none) "Error")
          (if jsTruthy (extractedCode r) then some (extractedCode r) else none)) ∧
    (respCommandName r = "OK" → commandCallback r2 = Outcome.resolved r2) := by
  obtain ⟨hfc, hfh⟩ := hfresh
  have key : respCommandName r ∈ ["OK", "NO", "BAD", "BYE", "PREAUTH"] →
      r2.command = r.command ∧ r2.code = extractedCode r ∧
        r2.humanReadable = (lastTextAttr r).getD none := by
    intro hin
    obtain ⟨r1, hac, hr2⟩ := processResponse_ok_in hin hp
    obtain ⟨h2, h3, h4, h6⟩ := applyCode_fields hac
    obtain ⟨g1, g2, g3, g4⟩ := applyHumanReadable_fields r1
    subst hr2
    refine ⟨?_, ?_, ?_⟩
    · rw [g1, h2]
    · rw [g2, h6]
      unfold extractedCode
      cases hoc : optionChain r with
      | some m => rfl
      | none => exact hfc
    · rw [g4, lastTextAttr_congr h3, h4, hfh]
  constructor
  · intro hcmd
    have hin : respCommandName r ∈ ["OK", "NO", "BAD", "BYE", "PREAUTH"] := by
      rcases hcmd with h | h <;> rw [h] <;> simp
    obtain ⟨k1, k2, k3⟩ := key hin
    have hmem2 : upTrim (r2.command.getD "") ∈ ["NO", "BAD"] := by
      rw [k1]
      show respCommandName r ∈ _
      rcases hcmd with h | h <;> rw [h] <;> simp
    unfold commandCallback
    rw [if_pos hmem2, k2, k3]
  · intro hok
    have hin : respCommandName r ∈ ["OK", "NO", "BAD", "BYE", "PREAUTH"] := by
      rw [hok]; simp
    obtain ⟨k1, _, _⟩ := key hin
    have hmem2 : upTrim (r2.command.getD "") ∉ ["NO", "BAD"] := by
      rw [k1]
      show respCommandName r ∉ _
      rw [hok]
      simp
    unfold commandCallback
    rw [if_neg hmem2]

/-- The raw parsed response for `W4 NO [AUTHENTICATIONFAILED] bad creds`. -/
def respW4 : Resp :=
  { tag := "W4", command := some "NO",
    attributes := some
      [RespAttr.atom (some "") (some [SecEl.item (some "AUTHENTICATIONFAILED")]),
       RespAttr.text (some "bad creds")] }

/-- `respW4` after `_processResponse`. -/
def respW4enriched : Resp :=
  { tag := "W4", command := some "NO",
    attributes := some
      [RespAttr.atom (some "") (some [SecEl.item (some "AUTHENTICATIONFAILED")]),
       RespAttr.text (some "bad creds")],
    code := JsVal.str "AUTHENTICATIONFAILED", humanReadable := some "bad creds" }

/-- Witness for C3 at the spec's concrete error-response scenario. -/
theorem tagged_no_bad_rejects_witness :
    ((respW4.code = JsVal.undef ∧ respW4.humanReadable = none) ∧
      processResponse respW4 = Except.ok respW4enriched) ∧
    (((respCommandName respW4 = "NO" ∨ respCommandName respW4 = "BAD") →
      commandCallback respW4enriched =
        Outcome.rejected (jsOrStr ((lastTextAttr respW4).getD none) "Error")
          (if jsTruthy (extractedCode respW4) then some (extractedCode respW4) else none)) ∧
    (respCommandName respW4 = "OK" →
      commandCallback respW4enriched = Outcome.resolved respW4enriched)) :=
  ⟨⟨⟨rfl, rfl⟩, rfl⟩, tagged_no_bad_rejects respW4 respW4enriched ⟨rfl, rfl⟩ rfl⟩


/-! ### Constructor defaults (`ImapClient(host, port, options)`) -/

/-- `this.port = port || (this.options.useSecureTransport ? 993 : 143)`.
The `port` argument is falsy when absent or `0`; the option is read before
being normalized, absent meaning falsy. -/
def ctorPort (port : Option Nat) (ust : Option Bool) : Nat :=
  match port with
  | some p => if p ≠ 0 then p else (if ust.getD false then 993 else 143)
  | none => if ust.getD false then 993 else 143

/-- `this.options.useSecureTransport = 'useSecureTransport' in this.options ?
!!this.options.useSecureTransport : this.port === 993`, then
`this.secureMode = !!this.options.useSecureTransport`. -/
def ctorSecureMode (port : Option Nat) (ust : Option Bool) : Bool :=
  match ust with
  | some b => b
  | none => ctorPort port ust == 993

/-- C6 counterexample: with port 993 and an explicit
`useSecureTransport: false`, the resulting port is 993 yet the
secure-transport flag is not forced true — the client connects insecurely. -/
theorem ctor_secure_not_forced :
    ctorPort (some 993) (some false) = 993 ∧
      ctorSecureMode (some 993) (some false) = false := by
  decide

/-- C6 amended: the port defaults to 143, or to 993 when secure transport is
requested; when `useSecureTransport` is not explicitly provided, a resulting
port of 993 forces the secure-transport flag true; an explicitly provided
`useSecureTransport` value always prevails, even with port 993. -/
theorem ctor_defaults (port : Option Nat) (ust : Option Bool) :
    ((port = none ∨ port = some 0) →
      ctorPort port ust = (if ust.getD false then 993 else 143)) ∧
    (ust = none → ctorPort port ust = 993 → ctorSecureMode port ust = true) ∧
    (∀ b, ust = some b → ctorSecureMode port ust = b) := by
  refine ⟨?_, ?_, ?_⟩
  · intro h
    rcases h with h | h <;> subst h <;> simp [ctorPort]
  · intro h hp
    subst h
    simp [ctorSecureMode, hp]
  · intro b h
    subst h
    rfl

/-- Witness for the amended C6 at concrete inputs. -/
theorem ctor_defaults_witness :
    ctorPort none (some true) = 993 ∧ ctorSecureMode (some 993) none = true ∧
      ctorSecureMode (some 143) (some true) = true :=
  ⟨by
    have h := (ctor_defaults none (some true)).1 (Or.inl rfl)
    simpa using h,
   (ctor_defaults (some 993) none).2.1 rfl (by decide),
   (ctor_defaults (some 143) (some true)).2.2 true rfl⟩

/-! ### Tag rendering (`'W' + (++this._tagCounter)`) -/

/-- Little-endian decimal digits with explicit fuel (the fuel `n` always
suffices). -/
def decCharsAux : Nat → Nat → List Char
  | 0, _ => []
  | _ + 1, 0 => []
  | fuel + 1, n + 1 => Nat.digitChar ((n + 1) % 10) :: decCharsAux fuel ((n + 1) / 10)

/-- Decimal rendering of a natural number, as JS number-to-string
conversion. -/
def decChars (n : Nat) : List Char := (decCharsAux n n).reverse

/-- The tag string `'W' + n`. -/
def tagStr (n : Nat) : String := String.mk ('W' :: decChars n)

theorem digitChar_toNat_sub : ∀ d : Nat, d < 10 → (Nat.digitChar d).toNat - 48 = d := by
  have h : ∀ d : Fin 10, (Nat.digitChar d.val).toNat - 48 = d.val := by decide
  intro d hd
  exact h ⟨d, hd⟩

theorem decVal_append_singleton (xs : List Char) (c : Char) :
    decVal (xs ++ [c]) = decVal xs * 10 + (c.toNat - 48) := by
  unfold decVal
  rw [List.foldl_append]
  rfl

theorem decVal_decCharsAux : ∀ (fuel n : Nat), n ≤ fuel →
    decVal (decCharsAux fuel n).reverse = n := by
  intro fuel
  induction fuel with
  | zero =>
    intro n hn
    have : n = 0 := by omega
    subst this
    rfl
  | succ fuel ih =>
    intro n hn
    cases n with
    | zero => rfl
    | succ m =>
      show decVal (Nat.digitChar ((m + 1) % 10) :: decCharsAux fuel ((m + 1) / 10)).reverse
          = m + 1
      rw [List.reverse_cons, decVal_append_singleton]
      have hq : (m + 1) / 10 ≤ fuel := by
        have := Nat.div_le_self (m + 1) 10
        have h2 : (m + 1) / 10 < m + 1 := Nat.div_lt_self (by omega) (by omega)
        omega
      rw [ih ((m + 1) / 10) hq, digitChar_toNat_sub _ (Nat.mod_lt _ (by omega))]
      omega

theorem decVal_decChars (n : Nat) : decVal (decChars n) = n :=
  decVal_decCharsAux n n (le_refl n)

theorem decChars_inj {m n : Nat} (h : decChars m = decChars n) : m = n := by
  have := congrArg decVal h
  rwa [decVal_decChars, decVal_decChars] at this

theorem tagStr_inj {m n : Nat} (h : tagStr m = tagStr n) : m = n := by
  unfold tagStr at h
  injection h with h2
  injection h2 with _ h3
  exact decChars_inj h3

theorem tagStr_one : tagStr 1 = "W1" := rfl


/-! ### Command queue, dispatch and error funnel
(`enqueueCommand`, `_sendRequest`, `_processServerQueue`,
`_processServerResponse`, `close`, `_onError`) -/

/-- A command record as built by `enqueueCommand` and `_sendRequest`.
`reqChunks` is the compiler collaborator's output for the request (attached
when the command is sent); `data` holds the chunks not yet written;
`payloadKeys` are the normalized `acceptUntagged` names; `erel` is the
`errorResponseExpectsEmptyLine` option (absent when not supplied). -/
structure CmdRec where
  tag : String
  reqChunks : List String
  data : List String
  payloadKeys : List String
  erel : Option Bool
deriving DecidableEq

/-- Client-side machine state.  `sent` logs the strings passed to `send`;
`settled` logs, per tag, the first outcome delivered to the command's
completion promise (a JS promise settles at most once, later callback
invocations are no-ops); `stalled` records an uncaught exception that killed
the server-queue trampoline (`_processingServerData` stays true forever);
`closed` records that `close()` detached the socket handlers. -/
structure MState where
  clientQueue : List CmdRec
  currentCommand : Option CmdRec
  canSend : Bool
  tagCounter : Nat
  connReady : Bool
  closed : Bool
  stalled : Bool
  sent : List String
  settled : List (String × Outcome)
  onErrorCount : Nat
  tagLog : List String
deriving DecidableEq

/-- State after the constructor. -/
def initMState : MState :=
  { clientQueue := [], currentCommand := none, canSend := false, tagCounter := 0,
    connReady := false, closed := false, stalled := false, sent := [],
    settled := [], onErrorCount := 0, tagLog := [] }

/-- `this.send(str)` (timeout arming not modelled; compression off). -/
def sendStr (st : MState) (s : String) : MState := { st with sent := st.sent ++ [s] }

/-- `_enterIdle` only arms the idle timer. -/
def enterIdle (st : MState) : MState := st

/-- `_sendRequest`: pop the client queue head into `_currentCommand`, clear
`_canSend`, compile, and send the first chunk with CRLF appended iff it is
the only one.  An empty compiler output would make `data.shift()` yield
`undefined` and JS would send the string `"undefined\r\n"`. -/
def sendRequest (st : MState) : MState :=
  match st.clientQueue with
  | [] => enterIdle st
  | c :: rest =>
    match c.reqChunks with
    | d :: ds =>
      sendStr { st with
          canSend := false
          clientQueue := rest
          currentCommand := some { c with data := ds } }
        (d ++ (if ds.isEmpty then "\r\n" else ""))
    | [] =>
      sendStr { st with
          canSend := false
          clientQueue := rest
          currentCommand := some { c with data := [] } } "undefined\r\n"

/-- Settle a command's completion promise: only the first settlement of a
tag is recorded (JS promises ignore later resolve/reject calls). -/
def settle (st : MState) (tg : String) (out : Outcome) : MState :=
  if (st.settled.map Prod.fst).contains tg then st
  else { st with settled := st.settled ++ [(tg, out)] }

/-- `enqueueCommand` before the `_canSend` check: assign the tag
`'W' + (++tagCounter)`, build the record, push it onto the client queue. -/
def enqueuePush (st : MState) (chunks : List String) (acceptUntagged : List String)
    (erel : Option Bool) : MState :=
  { st with
      tagCounter := st.tagCounter + 1
      tagLog := st.tagLog ++ [tagStr (st.tagCounter + 1)]
      clientQueue := st.clientQueue ++
        [{ tag := tagStr (st.tagCounter + 1), reqChunks := chunks, data := []
           , payloadKeys := acceptUntagged.map upTrim, erel := erel }] }

/-- `enqueueCommand`: push the record and start sending when `_canSend`
holds. -/
def enqueueStep (st : MState) (chunks : List String) (acceptUntagged : List String)
    (erel : Option Bool) : MState :=
  if (enqueuePush st chunks acceptUntagged erel).canSend then
    sendRequest (enqueuePush st chunks acceptUntagged erel)
  else enqueuePush st chunks acceptUntagged erel

/-- `typeof x` for the modelled `errorResponseExpectsEmptyLine` values: a
nonempty string in every case. -/
def jsTypeof : Option Bool → String
  | none => "undefined"
  | some _ => "boolean"

/-- The `response.tag === '+'` branch of `_processServerQueue`: feed the next
data chunk (CRLF appended iff it is the last), else send a bare CRLF — the
guard `typeof this._currentCommand.errorResponseExpectsEmptyLine` is a
nonempty, hence truthy, string for every value of the flag.  With no current
command, reading `.data` of `false` throws a TypeError outside the try
block, killing the trampoline.  `_canSend` is never touched here. -/
def contStep (st : MState) : MState :=
  match st.currentCommand with
  | none => { st with stalled := true }
  | some cur =>
    match cur.data with
    | d :: ds =>
      sendStr { st with currentCommand := some { cur with data := ds } }
        (d ++ (if ds.isEmpty then "\r\n" else ""))
    | [] =>
      if (jsTypeof cur.erel).length ≠ 0 then sendStr st "\r\n" else st

/-- Numeric-untagged normalization of `_processServerQueue`: `* 17 EXISTS`
becomes command `EXISTS` with `nr = 17`. -/
def normalizeNumeric (r : Resp) : Resp :=
  if r.tag = "*" ∧ r.command.getD "" ≠ "" ∧ (r.command.getD "").data.all Char.isDigit then
    match r.attributes with
    | some (RespAttr.atom v _ :: rest) =>
      { r with
          nr := some (decVal (r.command.getD "").data)
          command := some (upTrim (v.getD ""))
          attributes := some rest }
    | _ => r
  else r

/-- `_processServerResponse`: enrich via `_processResponse` (which can throw
outside any try block), then route: with no current command the response goes
to a global handler or is dropped; untagged responses are collected into the
payload bucket or handed to a global handler (neither changes the queue
state); a response carrying the current command's tag invokes its completion
callback — without clearing `_currentCommand`. -/
def processServerResponse (st : MState) (r : Resp) : Except Unit MState :=
  match processResponse r with
  | Except.error e => Except.error e
  | Except.ok r2 =>
    Except.ok
      (match st.currentCommand with
       | none => st
       | some cur =>
         if r2.tag = "*" ∧ respCommandName r2 ∈ cur.payloadKeys then st
         else if r2.tag = "*" then st
         else if r2.tag = cur.tag then settle st cur.tag (commandCallback r2)
         else st)

/-- The synthetic continuation response built for a raw line starting with
`+` (its `payload` string is never read downstream and is omitted). -/
def synthPlus : Resp := { tag := "+", command := none, attributes := none }

/-- Dispatch of one parsed (or synthetic) response by `_processServerQueue`:
normalize, handle `+` continuations, route, then run the continue callback:
the first response marks the connection ready and re-enables sending; any
later non-`*` response re-enables sending; either way `_sendRequest` runs. -/
def dispatchResp (st : MState) (r0 : Resp) : MState :=
  let r := normalizeNumeric r0
  if r.tag = "+" then contStep st
  else
    match processServerResponse st r with
    | Except.error _ => { st with stalled := true }
    | Except.ok st1 =>
      if ¬ st1.connReady then
        sendRequest { st1 with connReady := true, canSend := true }
      else if r.tag ≠ "*" then
        sendRequest { st1 with canSend := true }
      else st1

/-- `/^\+/.test(data)`. -/
def startsWithPlus (s : String) : Bool :=
  match s.data with
  | '+' :: _ => true
  | _ => false

/-- `close()`: clear both queues, drop the current command, cancel the
timers, disable compression and detach all transport handlers.  It does not
reset `_canSend` or the tag counter, and it never rejects. -/
def closeStep (st : MState) : MState :=
  { st with clientQueue := [], currentCommand := none, closed := true }

/-- `_onError`: `this.close().then(() => this.onerror(...))` — close, then
deliver the normalized error to the user sink.  Nothing deduplicates
deliveries. -/
def errorFunnel (st : MState) : MState :=
  let st1 := closeStep st
  { st1 with onErrorCount := st1.onErrorCount + 1 }

/-- Dispatch of one framed raw line: lines starting with `+` become the
synthetic continuation response without parsing; other lines go through the
external parser (its result supplied as an oracle), a parser throw being
caught and routed to `_onError`. -/
def processRawLine (st : MState) (raw : String) (parsedAs : Option Resp) : MState :=
  if startsWithPlus raw then dispatchResp st synthPlus
  else
    match parsedAs with
    | some r => dispatchResp st r
    | none => errorFunnel st

/-- External stimuli of the machine: an `enqueueCommand` call (with the
compiler collaborator's chunks for the request), a framed inbound line (with
the external parser's result as an oracle), a `close()` call, and a fatal
transport/timeout event firing `_onError`. -/
inductive MEvent where
  | enqueue (chunks : List String) (acceptUntagged : List String) (erel : Option Bool)
  | line (raw : String) (parsedAs : Option Resp)
  | close
  | errorEvt
deriving DecidableEq

/-- One machine step.  After `close()` the socket handlers are noops, so
inbound lines are ignored; after an uncaught dispatch exception the
trampoline is stalled (`_processingServerData` remains true), so queued
lines are never processed either. -/
def mstep (st : MState) (e : MEvent) : MState :=
  match e with
  | MEvent.enqueue chunks au erel => enqueueStep st chunks au erel
  | MEvent.line raw parsedAs =>
    if st.closed || st.stalled then st else processRawLine st raw parsedAs
  | MEvent.close => closeStep st
  | MEvent.errorEvt => errorFunnel st

/-- Run the machine from the constructor state. -/
def runM (evs : List MEvent) : MState := evs.foldl mstep initMState


/-! #### Invariants of the machine -/

/-- The optional current command does not carry tag `T`. -/
def noCmdTag (oc : Option CmdRec) (T : String) : Prop :=
  match oc with
  | some c => c.tag ≠ T
  | none => True

/-- No live command record carries tag `"W1"` any more, the counter has
passed 1, and no settlement for `"W1"` was ever recorded. -/
def w1free (st : MState) : Prop :=
  1 ≤ st.tagCounter ∧ (∀ c ∈ st.clientQueue, c.tag ≠ "W1") ∧
    noCmdTag st.currentCommand "W1" ∧ (∀ p ∈ st.settled, p.1 ≠ "W1")

theorem w1free_sendRequest (st : MState) (h : w1free st) : w1free (sendRequest st) := by
  obtain ⟨h1, h2, h3, h4⟩ := h
  unfold sendRequest
  cases hq : st.clientQueue with
  | nil => exact ⟨h1, h2, h3, h4⟩
  | cons c rest =>
    have hctag : c.tag ≠ "W1" := h2 c (by rw [hq]; exact List.mem_cons_self c rest)
    have hrest : ∀ x ∈ rest, x.tag ≠ "W1" := fun x hx =>
      h2 x (by rw [hq]; exact List.mem_cons_of_mem c hx)
    dsimp only
    cases hc : c.reqChunks with
    | cons d ds => exact ⟨h1, hrest, hctag, h4⟩
    | nil => exact ⟨h1, hrest, hctag, h4⟩

theorem w1free_settle (st : MState) (tg : String) (out : Outcome)
    (h : w1free st) (htg : tg ≠ "W1") : w1free (settle st tg out) := by
  obtain ⟨h1, h2, h3, h4⟩ := h
  unfold settle
  by_cases hc : (st.settled.map Prod.fst).contains tg
  · rw [if_pos hc]; exact ⟨h1, h2, h3, h4⟩
  · rw [if_neg hc]
    refine ⟨h1, h2, h3, ?_⟩
    intro p hp
    rcases List.mem_append.mp hp with hp1 | hp2
    · exact h4 p hp1
    · have hpe : p = (tg, out) := by simpa using hp2
      rw [hpe]
      exact htg

theorem w1free_contStep (st : MState) (h : w1free st) : w1free (contStep st) := by
  obtain ⟨h1, h2, h3, h4⟩ := h
  unfold contStep
  cases hcc : st.currentCommand with
  | none => exact ⟨h1, h2, trivial, h4⟩
  | some cur =>
    have hcur : cur.tag ≠ "W1" := by
      have h3' := h3
      rw [hcc] at h3'
      exact h3'
    dsimp only
    cases hd : cur.data with
    | cons d ds => exact ⟨h1, h2, hcur, h4⟩
    | nil =>
      by_cases he : (jsTypeof cur.erel).length ≠ 0
      · rw [if_pos he]; exact ⟨h1, h2, h3, h4⟩
      · rw [if_neg he]; exact ⟨h1, h2, h3, h4⟩

theorem w1free_psr (st : MState) (r : Resp) (st1 : MState) (h : w1free st)
    (hok : processServerResponse st r = Except.ok st1) : w1free st1 := by
  obtain ⟨h1, h2, h3, h4⟩ := h
  unfold processServerResponse at hok
  cases hpr : processResponse r with
  | error e => rw [hpr] at hok; exact absurd hok (by simp)
  | ok r2 =>
    rw [hpr] at hok
    injection hok with hok1
    subst hok1
    cases hcc : st.currentCommand with
    | none => exact ⟨h1, h2, h3, h4⟩
    | some cur =>
      have hcur : cur.tag ≠ "W1" := by
        have h3' := h3
        rw [hcc] at h3'
        exact h3'
      dsimp only
      by_cases hb1 : r2.tag = "*" ∧ respCommandName r2 ∈ cur.payloadKeys
      · rw [if_pos hb1]; exact ⟨h1, h2, h3, h4⟩
      · rw [if_neg hb1]
        by_cases hb2 : r2.tag = "*"
        · rw [if_pos hb2]; exact ⟨h1, h2, h3, h4⟩
        · rw [if_neg hb2]
          by_cases hb3 : r2.tag = cur.tag
          · rw [if_pos hb3]
            exact w1free_settle st cur.tag _ ⟨h1, h2, h3, h4⟩ hcur
          · rw [if_neg hb3]; exact ⟨h1, h2, h3, h4⟩

theorem w1free_dispatchResp (st : MState) (r0 : Resp) (h : w1free st) :
    w1free (dispatchResp st r0) := by
  unfold dispatchResp
  by_cases ht : (normalizeNumeric r0).tag = "+"
  · rw [if_pos ht]; exact w1free_contStep st h
  · rw [if_neg ht]
    cases hpsr : processServerResponse st (normalizeNumeric r0) with
    | error e =>
      obtain ⟨h1, h2, h3, h4⟩ := h
      exact ⟨h1, h2, h3, h4⟩
    | ok st1 =>
      dsimp only
      have hst1 := w1free_psr st _ st1 h hpsr
      obtain ⟨g1, g2, g3, g4⟩ := hst1
      by_cases hcr : ¬ st1.connReady = true
      · rw [if_pos hcr]
        exact w1free_sendRequest _ ⟨g1, g2, g3, g4⟩
      · rw [if_neg hcr]
        by_cases ht2 : (normalizeNumeric r0).tag ≠ "*"
        · rw [if_pos ht2]
          exact w1free_sendRequest _ ⟨g1, g2, g3, g4⟩
        · rw [if_neg ht2]; exact ⟨g1, g2, g3, g4⟩

theorem w1free_mstep (st : MState) (e : MEvent) (h : w1free st) : w1free (mstep st e) := by
  cases e with
  | enqueue chunks au erel =>
    have hnew : tagStr (st.tagCounter + 1) ≠ "W1" := by
      intro hx
      obtain ⟨h1, _, _, _⟩ := h
      have := tagStr_inj (hx.trans tagStr_one.symm)
      omega
    have hpush : w1free (enqueuePush st chunks au erel) := by
      obtain ⟨h1, h2, h3, h4⟩ := h
      refine ⟨?_, ?_, h3, h4⟩
      · show 1 ≤ st.tagCounter + 1
        omega
      · intro c hc
        have hc' : c ∈ st.clientQueue ++
            [{ tag := tagStr (st.tagCounter + 1), reqChunks := chunks, data := []
               , payloadKeys := au.map upTrim, erel := erel }] := hc
        rcases List.mem_append.mp hc' with hc1 | hc2
        · exact h2 c hc1
        · have hce : c = { tag := tagStr (st.tagCounter + 1), reqChunks := chunks
                           , data := [], payloadKeys := au.map upTrim, erel := erel } := by
            simpa using hc2
          rw [hce]
          exact hnew
    show w1free (enqueueStep st chunks au erel)
    unfold enqueueStep
    by_cases hcs : (enqueuePush st chunks au erel).canSend = true
    · rw [if_pos hcs]
      exact w1free_sendRequest _ hpush
    · rw [if_neg hcs]
      exact hpush
  | line raw parsedAs =>
    show w1free (if st.closed || st.stalled then st else processRawLine st raw parsedAs)
    by_cases hg : (st.closed || st.stalled) = true
    · rw [if_pos hg]; exact h
    · rw [if_neg hg]
      unfold processRawLine
      by_cases hplus : startsWithPlus raw = true
      · rw [if_pos hplus]
        exact w1free_dispatchResp st synthPlus h
      · rw [if_neg hplus]
        cases parsedAs with
        | some r => exact w1free_dispatchResp st r h
        | none =>
          obtain ⟨h1, h2, h3, h4⟩ := h
          exact ⟨h1, fun c hc => absurd hc (List.not_mem_nil c), trivial, h4⟩
  | close =>
    obtain ⟨h1, h2, h3, h4⟩ := h
    exact ⟨h1, fun c hc => absurd hc (List.not_mem_nil c), trivial, h4⟩
  | errorEvt =>
    obtain ⟨h1, h2, h3, h4⟩ := h
    exact ⟨h1, fun c hc => absurd hc (List.not_mem_nil c), trivial, h4⟩

/-! #### C2: settlement of command completions -/

/-- Any run extension of a `w1free` state stays `w1free`. -/
theorem w1free_foldl (post : List MEvent) (st : MState) (h : w1free st) :
    w1free (post.foldl mstep st) := by
  induction post generalizing st with
  | nil => exact h
  | cons e es ih => exact ih (mstep st e) (w1free_mstep st e h)

/-- One command is enqueued before the greeting enabled sending, then
`close()` is called: the command is dropped from the queue unsent and
unsettled. -/
def c2trace : List MEvent := [MEvent.enqueue ["LOGOUT"] [] none, MEvent.close]

/-- C2 (counterexample): after enqueueing one command and calling `close()`,
tag `W1` was handed out, the connection is closed, nothing has been settled,
and no continuation of the run ever settles `W1`: the completion rests
forever unsettled, refuting the claim that every enqueued command reaches a
terminal outcome. -/
theorem enqueued_completion_never_settles :
    (runM c2trace).tagLog = ["W1"] ∧ (runM c2trace).closed = true ∧
      (runM c2trace).settled = [] ∧
      ∀ post : List MEvent, ∀ p ∈ (runM (c2trace ++ post)).settled, p.1 ≠ "W1" := by
  refine ⟨rfl, rfl, rfl, ?_⟩
  intro post p hp
  have hr : runM (c2trace ++ post) = post.foldl mstep (runM c2trace) := by
    show (c2trace ++ post).foldl mstep initMState = _
    rw [List.foldl_append]
    rfl
  have hw : w1free (runM c2trace) :=
    ⟨by decide, fun c hc => absurd hc (List.not_mem_nil c), trivial,
      fun q hq => absurd hq (List.not_mem_nil q)⟩
  have hw2 := w1free_foldl post (runM c2trace) hw
  rw [hr] at hp
  exact hw2.2.2.2 p hp

/-- `_sendRequest` never settles a promise. -/
theorem sendRequest_settled (st : MState) : (sendRequest st).settled = st.settled := by
  unfold sendRequest
  cases hq : st.clientQueue with
  | nil => rfl
  | cons c rest =>
    dsimp only
    cases hc : c.reqChunks with
    | nil => rfl
    | cons d ds => rfl

/-- The continuation branch never settles a promise. -/
theorem contStep_settled (st : MState) : (contStep st).settled = st.settled := by
  unfold contStep
  cases hcc : st.currentCommand with
  | none => rfl
  | some cur =>
    dsimp only
    cases hd : cur.data with
    | nil =>
      dsimp only
      by_cases he : (jsTypeof cur.erel).length ≠ 0
      · rw [if_pos he]; rfl
      · rw [if_neg he]
    | cons d ds => rfl

/-- The tags recorded in `settled` are duplicate-free: no completion has been
settled twice. -/
def settledOnce (st : MState) : Prop := (st.settled.map Prod.fst).Nodup

theorem settledOnce_settle (st : MState) (tg : String) (out : Outcome)
    (h : settledOnce st) : settledOnce (settle st tg out) := by
  unfold settle
  by_cases hc : (st.settled.map Prod.fst).contains tg
  · rw [if_pos hc]; exact h
  · rw [if_neg hc]
    show ((st.settled ++ [(tg, out)]).map Prod.fst).Nodup
    rw [List.map_append, List.nodup_append]
    refine ⟨h, List.nodup_singleton tg, ?_⟩
    intro a ha hb
    rw [List.map_singleton, List.mem_singleton] at hb
    subst hb
    exact hc (List.elem_eq_true_of_mem ha)

theorem settledOnce_psr (st : MState) (r : Resp) (st1 : MState) (h : settledOnce st)
    (hok : processServerResponse st r = Except.ok st1) : settledOnce st1 := by
  unfold processServerResponse at hok
  cases hpr : processResponse r with
  | error e => rw [hpr] at hok; exact absurd hok (by simp)
  | ok r2 =>
    rw [hpr] at hok
    injection hok with hok1
    subst hok1
    cases hcc : st.currentCommand with
    | none => exact h
    | some cur =>
      dsimp only
      by_cases hb1 : r2.tag = "*" ∧ respCommandName r2 ∈ cur.payloadKeys
      · rw [if_pos hb1]; exact h
      · rw [if_neg hb1]
        by_cases hb2 : r2.tag = "*"
        · rw [if_pos hb2]; exact h
        · rw [if_neg hb2]
          by_cases hb3 : r2.tag = cur.tag
          · rw [if_pos hb3]
            exact settledOnce_settle st cur.tag _ h
          · rw [if_neg hb3]; exact h

theorem settledOnce_dispatchResp (st : MState) (r0 : Resp) (h : settledOnce st) :
    settledOnce (dispatchResp st r0) := by
  unfold dispatchResp
  by_cases ht : (normalizeNumeric r0).tag = "+"
  · rw [if_pos ht]
    show ((contStep st).settled.map Prod.fst).Nodup
    rw [contStep_settled]
    exact h
  · rw [if_neg ht]
    cases hpsr : processServerResponse st (normalizeNumeric r0) with
    | error e => exact h
    | ok st1 =>
      dsimp only
      have h1 := settledOnce_psr st _ st1 h hpsr
      by_cases hcr : ¬ st1.connReady = true
      · rw [if_pos hcr]
        show ((sendRequest _).settled.map Prod.fst).Nodup
        rw [sendRequest_settled]
        exact h1
      · rw [if_neg hcr]
        by_cases ht2 : (normalizeNumeric r0).tag ≠ "*"
        · rw [if_pos ht2]
          show ((sendRequest _).settled.map Prod.fst).Nodup
          rw [sendRequest_settled]
          exact h1
        · rw [if_neg ht2]; exact h1

theorem settledOnce_mstep (st : MState) (e : MEvent) (h : settledOnce st) :
    settledOnce (mstep st e) := by
  cases e with
  | enqueue chunks au erel =>
    show settledOnce (enqueueStep st chunks au erel)
    unfold enqueueStep
    by_cases hcs : (enqueuePush st chunks au erel).canSend = true
    · rw [if_pos hcs]
      show ((sendRequest _).settled.map Prod.fst).Nodup
      rw [sendRequest_settled]
      exact h
    · rw [if_neg hcs]; exact h
  | line raw parsedAs =>
    show settledOnce (if st.closed || st.stalled then st else processRawLine st raw parsedAs)
    by_cases hg : (st.closed || st.stalled) = true
    · rw [if_pos hg]; exact h
    · rw [if_neg hg]
      unfold processRawLine
      by_cases hplus : startsWithPlus raw = true
      · rw [if_pos hplus]; exact settledOnce_dispatchResp st synthPlus h
      · rw [if_neg hplus]
        cases parsedAs with
        | some r => exact settledOnce_dispatchResp st r h
        | none => exact h
  | close => exact h
  | errorEvt => exact h

theorem settledOnce_runM (evs : List MEvent) : settledOnce (runM evs) := by
  have hgen : ∀ st, settledOnce st → settledOnce (evs.foldl mstep st) := by
    induction evs with
    | nil => intro st h; exact h
    | cons e es ih => intro st h; exact ih (mstep st e) (settledOnce_mstep st e h)
  exact hgen initMState List.nodup_nil

/-- C2 (amended): in every run of the machine, each tag is settled at most
once — a completion never reaches two terminal outcomes; the other half of
the claim fails, because `close()` leaves enqueued completions dangling
forever (see the counterexample). -/
theorem completion_settled_at_most_once (evs : List MEvent) (T : String) :
    ((runM evs).settled.map Prod.fst).count T ≤ 1 :=
  List.nodup_iff_count_le_one.mp (settledOnce_runM evs) T

/-! #### C5: the error funnel is not idempotent -/

/-- Close, then two fatal transport events. -/
def c5trace : List MEvent := [MEvent.close, MEvent.errorEvt, MEvent.errorEvt]

/-- C5 (counterexample): two invocations of the `_onError` funnel after
`close()` deliver to the user `onerror` sink twice — nothing deduplicates
deliveries, refuting the claimed idempotence. -/
theorem error_sink_invoked_twice :
    (runM c5trace).closed = true ∧ (runM c5trace).onErrorCount = 2 ∧
      ¬ (runM c5trace).onErrorCount ≤ 1 := by
  refine ⟨rfl, rfl, ?_⟩
  decide

/-- C5 (amended): every invocation of `_onError` closes the connection and
delivers to `onerror` exactly once more: `k` invocations — before or after a
close — produce exactly `k` deliveries, never at most one. -/
theorem error_funnel_counts (st : MState) (k : Nat) :
    (errorFunnel st).closed = true ∧
      (errorFunnel st).onErrorCount = st.onErrorCount + 1 ∧
      ((List.replicate k MEvent.errorEvt).foldl mstep st).onErrorCount =
        st.onErrorCount + k := by
  refine ⟨rfl, rfl, ?_⟩
  induction k generalizing st with
  | zero => rfl
  | succ n ih =>
    rw [List.replicate_succ, List.foldl_cons, ih (mstep st MEvent.errorEvt)]
    show st.onErrorCount + 1 + n = st.onErrorCount + (n + 1)
    omega

/-! #### C7: tag assignment -/

/-- The tags ever assigned are `W1 .. Wn` in order, where `n` is the tag
counter. -/
def tagInv (st : MState) : Prop :=
  st.tagLog = (List.range st.tagCounter).map (fun i => tagStr (i + 1))

theorem sendRequest_tags (st : MState) :
    (sendRequest st).tagCounter = st.tagCounter ∧ (sendRequest st).tagLog = st.tagLog := by
  unfold sendRequest
  cases hq : st.clientQueue with
  | nil => exact ⟨rfl, rfl⟩
  | cons c rest =>
    dsimp only
    cases hc : c.reqChunks with
    | nil => exact ⟨rfl, rfl⟩
    | cons d ds => exact ⟨rfl, rfl⟩

theorem contStep_tags (st : MState) :
    (contStep st).tagCounter = st.tagCounter ∧ (contStep st).tagLog = st.tagLog := by
  unfold contStep
  cases hcc : st.currentCommand with
  | none => exact ⟨rfl, rfl⟩
  | some cur =>
    dsimp only
    cases hd : cur.data with
    | nil =>
      dsimp only
      by_cases he : (jsTypeof cur.erel).length ≠ 0
      · rw [if_pos he]; exact ⟨rfl, rfl⟩
      · rw [if_neg he]; exact ⟨rfl, rfl⟩
    | cons d ds => exact ⟨rfl, rfl⟩

theorem settle_tags (st : MState) (tg : String) (out : Outcome) :
    (settle st tg out).tagCounter = st.tagCounter ∧
      (settle st tg out).tagLog = st.tagLog := by
  unfold settle
  by_cases hc : (st.settled.map Prod.fst).contains tg
  · rw [if_pos hc]; exact ⟨rfl, rfl⟩
  · rw [if_neg hc]; exact ⟨rfl, rfl⟩

theorem psr_tags (st : MState) (r : Resp) (st1 : MState)
    (hok : processServerResponse st r = Except.ok st1) :
    st1.tagCounter = st.tagCounter ∧ st1.tagLog = st.tagLog := by
  unfold processServerResponse at hok
  cases hpr : processResponse r with
  | error e => rw [hpr] at hok; exact absurd hok (by simp)
  | ok r2 =>
    rw [hpr] at hok
    injection hok with hok1
    subst hok1
    cases hcc : st.currentCommand with
    | none => exact ⟨rfl, rfl⟩
    | some cur =>
      dsimp only
      by_cases hb1 : r2.tag = "*" ∧ respCommandName r2 ∈ cur.payloadKeys
      · rw [if_pos hb1]; exact ⟨rfl, rfl⟩
      · rw [if_neg hb1]
        by_cases hb2 : r2.tag = "*"
        · rw [if_pos hb2]; exact ⟨rfl, rfl⟩
        · rw [if_neg hb2]
          by_cases hb3 : r2.tag = cur.tag
          · rw [if_pos hb3]; exact settle_tags st cur.tag _
          · rw [if_neg hb3]; exact ⟨rfl, rfl⟩

theorem dispatchResp_tags (st : MState) (r0 : Resp) :
    (dispatchResp st r0).tagCounter = st.tagCounter ∧
      (dispatchResp st r0).tagLog = st.tagLog := by
  unfold dispatchResp
  by_cases ht : (normalizeNumeric r0).tag = "+"
  · rw [if_pos ht]; exact contStep_tags st
  · rw [if_neg ht]
    cases hpsr : processServerResponse st (normalizeNumeric r0) with
    | error e => exact ⟨rfl, rfl⟩
    | ok st1 =>
      dsimp only
      have h1 := psr_tags st _ st1 hpsr
      by_cases hcr : ¬ st1.connReady = true
      · rw [if_pos hcr]
        have hsr := sendRequest_tags { st1 with connReady := true, canSend := true }
        exact ⟨hsr.1.trans h1.1, hsr.2.trans h1.2⟩
      · rw [if_neg hcr]
        by_cases ht2 : (normalizeNumeric r0).tag ≠ "*"
        · rw [if_pos ht2]
          have hsr := sendRequest_tags { st1 with canSend := true }
          exact ⟨hsr.1.trans h1.1, hsr.2.trans h1.2⟩
        · rw [if_neg ht2]; exact h1

theorem tagInv_mstep (st : MState) (e : MEvent) (h : tagInv st) : tagInv (mstep st e) := by
  cases e with
  | enqueue chunks au erel =>
    have hpush : tagInv (enqueuePush st chunks au erel) := by
      show st.tagLog ++ [tagStr (st.tagCounter + 1)] =
        (List.range (st.tagCounter + 1)).map (fun i => tagStr (i + 1))
      rw [List.range_succ, List.map_append, ← h]
      rfl
    show tagInv (enqueueStep st chunks au erel)
    unfold enqueueStep
    by_cases hcs : (enqueuePush st chunks au erel).canSend = true
    · rw [if_pos hcs]
      have hsr := sendRequest_tags (enqueuePush st chunks au erel)
      show (sendRequest (enqueuePush st chunks au erel)).tagLog =
        (List.range (sendRequest (enqueuePush st chunks au erel)).tagCounter).map
          (fun i => tagStr (i + 1))
      rw [hsr.1, hsr.2]
      exact hpush
    · rw [if_neg hcs]; exact hpush
  | line raw parsedAs =>
    show tagInv (if st.closed || st.stalled then st else processRawLine st raw parsedAs)
    by_cases hg : (st.closed || st.stalled) = true
    · rw [if_pos hg]; exact h
    · rw [if_neg hg]
      unfold processRawLine
      by_cases hplus : startsWithPlus raw = true
      · rw [if_pos hplus]
        have hd := dispatchResp_tags st synthPlus
        show (dispatchResp st synthPlus).tagLog =
          (List.range (dispatchResp st synthPlus).tagCounter).map (fun i => tagStr (i + 1))
        rw [hd.1, hd.2]
        exact h
      · rw [if_neg hplus]
        cases parsedAs with
        | some r =>
          have hd := dispatchResp_tags st r
          show (dispatchResp st r).tagLog =
            (List.range (dispatchResp st r).tagCounter).map (fun i => tagStr (i + 1))
          rw [hd.1, hd.2]
          exact h
        | none => exact h
  | close => exact h
  | errorEvt => exact h

theorem tagInv_runM (evs : List MEvent) : tagInv (runM evs) := by
  have hgen : ∀ st, tagInv st → tagInv (evs.foldl mstep st) := by
    induction evs with
    | nil => intro st h; exact h
    | cons e es ih => intro st h; exact ih (mstep st e) (tagInv_mstep st e h)
  exact hgen initMState rfl

/-- C7: in every run of the machine, the tags assigned by `enqueueCommand`
are exactly the strings `W1, W2, ..., Wn` in order — `W` followed by the
successive values of the counter, starting at 1 — and no tag is ever
repeated. -/
theorem tags_strictly_increasing (evs : List MEvent) :
    (runM evs).tagLog =
        (List.range (runM evs).tagCounter).map (fun i => tagStr (i + 1)) ∧
      (runM evs).tagLog.Nodup := by
  have h := tagInv_runM evs
  refine ⟨h, ?_⟩
  rw [h]
  refine (List.nodup_range _).map ?_
  intro a b hab
  have h2 := tagStr_inj hab
  omega

/-! #### C9: a `+` line with no current command -/

/-- C9: in every live state with no current command, a framed line starting
with `+` makes the dispatcher read `.data` of the absent record and throw a
TypeError outside the parser try block: the trampoline stalls, the line is
not dropped as a no-op, and the error funnel is never invoked. -/
theorem plus_line_without_current_crashes (st : MState) (raw : String) (o : Option Resp)
    (h1 : st.closed = false) (h2 : st.stalled = false) (h3 : st.currentCommand = none)
    (h4 : startsWithPlus raw = true) :
    mstep st (MEvent.line raw o) = { st with stalled := true } ∧
      (mstep st (MEvent.line raw o)).onErrorCount = st.onErrorCount ∧
      (mstep st (MEvent.line raw o)).settled = st.settled := by
  have heq : mstep st (MEvent.line raw o) = { st with stalled := true } := by
    show (if st.closed || st.stalled then st else processRawLine st raw o) =
      { st with stalled := true }
    rw [if_neg (by simp [h1, h2])]
    unfold processRawLine
    rw [if_pos h4]
    show contStep st = { st with stalled := true }
    unfold contStep
    rw [h3]
  refine ⟨heq, ?_, ?_⟩ <;> rw [heq]

/-- The C9 scenario at the constructor state with the raw line `+ go`. -/
theorem plus_line_without_current_crashes_witness :
    mstep initMState (MEvent.line "+ go" none) = { initMState with stalled := true } ∧
      (mstep initMState (MEvent.line "+ go" none)).onErrorCount =
        initMState.onErrorCount ∧
      (mstep initMState (MEvent.line "+ go" none)).settled = initMState.settled :=
  plus_line_without_current_crashes initMState "+ go" none rfl rfl rfl rfl

/-! #### C4: the continuation empty-line bug -/

/-- A live state whose current command has remaining data chunks `ds` and
`errorResponseExpectsEmptyLine` value `e` (`none` models the property being
absent on the record). -/
def c4state (ds : List String) (e : Option Bool) : MState :=
  { initMState with
      currentCommand := some
        { tag := "W1", reqChunks := [], data := ds
          , payloadKeys := [], erel := e } }

/-- C4 (code bug): on a `+` continuation with remaining data chunks the next
chunk is sent with CRLF appended iff it is the last and `_canSend` is
untouched, as claimed — but with no chunks left a bare CRLF is sent for
EVERY value of `errorResponseExpectsEmptyLine`, also when the flag is absent
or `false`: the guard `typeof this._currentCommand.errorResponseExpectsEmptyLine`
is a nonempty, hence truthy, string no matter what the flag holds. -/
theorem continuation_empty_line_always_sent (e : Option Bool) :
    (contStep (c4state [] e)).sent = ["\r\n"] ∧
      (contStep (c4state [] e)).canSend = (c4state [] e).canSend ∧
      (contStep (c4state ["abc"] e)).sent = ["abc\r\n"] ∧
      (contStep (c4state ["abc", "def"] e)).sent = ["abc"] ∧
      (contStep (c4state ["abc", "def"] e)).currentCommand =
        some { tag := "W1", reqChunks := [], data := ["def"]
               , payloadKeys := [], erel := e } := by
  cases e with
  | none => exact ⟨rfl, rfl, rfl, rfl, rfl⟩
  | some b => exact ⟨rfl, rfl, rfl, rfl, rfl⟩

/-! #### C10: options shallow-copied over the command record -/

/-- The command record built by `enqueueCommand` before the options are
applied: the four core fields under their JS property names, every other
key `undefined`. -/
def baseCommandData {V : Type} (tag request payload callback undef : V) : String → V :=
  fun k =>
    if k = "tag" then tag
    else if k = "request" then request
    else if k = "payload" then payload
    else if k = "callback" then callback
    else undef

/-- `Object.keys(options || \x7b\x7d).forEach((key) => data[key] = options[key])`:
each option entry overwrites the record at its key, in order. -/
def buildCommandData {V : Type} (tag request payload callback undef : V)
    (options : List (String × V)) : String → V :=
  options.foldl (fun rec kv => Function.update rec kv.1 kv.2)
    (baseCommandData tag request payload callback undef)

theorem foldl_update_not_mem {V : Type} (options : List (String × V)) :
    ∀ (f0 : String → V) (k : String), k ∉ options.map Prod.fst →
      options.foldl (fun rec kv => Function.update rec kv.1 kv.2) f0 k = f0 k := by
  induction options with
  | nil => intro f0 k _; rfl
  | cons kv rest ih =>
    intro f0 k hk
    rw [List.map_cons, List.mem_cons] at hk
    push_neg at hk
    rw [List.foldl_cons, ih _ k hk.2, Function.update_noteq hk.1]

/-- C10: the options list is copied key-by-key onto the command record after
its core fields are built, so an option whose key names any field — `tag`,
`request`, `payload`, the completion `callback`, or anything else — wins
over the built value (the last write to a key is what the record holds),
while every key not named in the options keeps the built value. -/
theorem options_overwrite_any_field {V : Type} (tag request payload callback undef v : V)
    (options : List (String × V)) (k : String) :
    buildCommandData tag request payload callback undef (options ++ [(k, v)]) k = v ∧
      (k ∉ options.map Prod.fst →
        buildCommandData tag request payload callback undef options k =
          baseCommandData tag request payload callback undef k) := by
  constructor
  · show (options ++ [(k, v)]).foldl (fun rec kv => Function.update rec kv.1 kv.2)
      (baseCommandData tag request payload callback undef) k = v
    rw [List.foldl_append, List.foldl_cons, List.foldl_nil, Function.update_same]
  · intro hk
    exact foldl_update_not_mem options _ k hk

end ImapTransport
